import Mathlib

/-!
# Verification of the ambulance-dispatch simulator

Shallow embedding of the two prototypes (`src/prototype1.py`, Dijkstra
on-demand; `src/prototype2.py`, Floyd-Warshall precomputation) and of the
shared dispatch loop, together with proofs of the specification claims.

Modelling conventions:
* location tokens are natural numbers (Python strings are opaque ordered
  tokens; any countable linear order works);
* edge weights are nonnegative rationals `ℚ≥0` (the code adds travel time
  and traffic delay upstream, giving a nonnegative number; exact arithmetic
  idealizes Python floats);
* `float('infinity')` is `⊤` in `WithTop ℚ≥0`;
* Python dicts keyed by vertices are total functions whose value outside
  the key set is the value the algorithms would never observe;
* the heapq priority queues are modelled as lists whose pop operation
  removes the least element in the lexicographic tuple order, exactly the
  element `heapq.heappop` returns.
-/

/-- Cost values: a nonnegative rational or `float('infinity')`. -/
abbrev Cost : Type := WithTop ℚ≥0

@[reducible] instance (priority := 2000) : BEq (Cost × ℕ) := instBEqOfDecidableEq

instance (priority := 2000) : LawfulBEq (Cost × ℕ) where
  eq_of_beq := of_decide_eq_true
  rfl := of_decide_eq_self_eq_true _

/-- The graph of `prototype1.py`/`prototype2.py` (`class Graph`):
an adjacency list `{source: [(destination, weight), ...]}` and the set of
vertices.  The vertex set is kept as a duplicate-free list (Python `set`). -/
structure Graph where
  verts : List ℕ
  adj : ℕ → List (ℕ × ℚ≥0)

/-- Well-formedness maintained by `add_edge`: the vertex list has no
duplicates, every edge endpoint is a registered vertex, and vertices never
touched by `add_edge` as a source have an empty adjacency list (in Python
they are simply absent from the `adjacency_list` dict). -/
structure Graph.wf (g : Graph) : Prop where
  nodup : g.verts.Nodup
  srcMem : ∀ u, ∀ p ∈ g.adj u, u ∈ g.verts
  tgtMem : ∀ u, ∀ p ∈ g.adj u, p.1 ∈ g.verts
  adjEmpty : ∀ u, u ∉ g.verts → g.adj u = []

/-- The empty graph (`Graph.__init__`). -/
def Graph.empty : Graph := ⟨[], fun _ => []⟩

/-- `Graph.add_edge`: append the directed edge to the source's adjacency
list and register both endpoints in the vertex set. -/
def Graph.add_edge (g : Graph) (source destination : ℕ) (weight : ℚ≥0) : Graph :=
  { verts := List.insert destination (List.insert source g.verts)
    adj := fun u => if u = source then g.adj u ++ [(destination, weight)] else g.adj u }

/-- Build a graph from a list of `(source, destination, weight)` rows, the
way `load_network_data` feeds `add_edge`. -/
def buildGraph (rows : List (ℕ × ℕ × ℚ≥0)) : Graph :=
  rows.foldl (fun g r => g.add_edge r.1 r.2.1 r.2.2) Graph.empty

theorem Graph.wf_add_edge {g : Graph} (h : g.wf) (s d : ℕ) (w : ℚ≥0) :
    (g.add_edge s d w).wf := by
  constructor
  · exact (h.nodup.insert).insert
  · intro u p hp
    by_cases hu : u = s
    · subst hu
      simp [Graph.add_edge, List.mem_insert_iff]
    · simp only [Graph.add_edge, if_neg hu] at hp
      simp [Graph.add_edge, List.mem_insert_iff, Or.inr (Or.inr (h.srcMem u p hp))]
  · intro u p hp
    by_cases hu : u = s
    · subst hu
      simp only [Graph.add_edge, if_pos, List.mem_append] at hp
      rcases hp with hp | hp
      · simp [Graph.add_edge, List.mem_insert_iff, Or.inr (Or.inr (h.tgtMem _ p hp))]
      · simp only [List.mem_singleton] at hp
        subst hp
        simp [Graph.add_edge, List.mem_insert_iff]
    · simp only [Graph.add_edge, if_neg hu] at hp
      simp [Graph.add_edge, List.mem_insert_iff, Or.inr (Or.inr (h.tgtMem u p hp))]
  · intro u hu
    simp only [Graph.add_edge, List.mem_insert_iff, not_or] at hu
    have hne : u ≠ s := hu.2.1
    have : g.adj u = [] := h.adjEmpty u hu.2.2
    simp [Graph.add_edge, if_neg hne, this]

theorem buildGraph_wf (rows : List (ℕ × ℕ × ℚ≥0)) : (buildGraph rows).wf := by
  suffices h : ∀ g : Graph, g.wf → (rows.foldl (fun g r => g.add_edge r.1 r.2.1 r.2.2) g).wf by
    apply h
    exact ⟨List.nodup_nil, by simp [Graph.empty], by simp [Graph.empty], by simp [Graph.empty]⟩
  induction rows with
  | nil => intro g hg; exact hg
  | cons r rs ih =>
      intro g hg
      exact ih _ (Graph.wf_add_edge hg r.1 r.2.1 r.2.2)

/-- Total number of edges, Σ over vertices of out-degree. -/
def Graph.edgeCount (g : Graph) : ℕ := (g.verts.map (fun u => (g.adj u).length)).sum

/-- `IsWalkCost g u v c`: there is a walk in `g` from `u` to `v` whose edge
weights sum to `c`.  This is the mathematical specification both
shortest-path strategies are measured against.  Walks grow at the target
end, which matches the way Dijkstra discovers them. -/
inductive IsWalkCost (g : Graph) (u : ℕ) : ℕ → ℚ≥0 → Prop where
  | refl : IsWalkCost g u u 0
  | snoc {y x : ℕ} {c : ℚ≥0} {w : ℚ≥0} :
      IsWalkCost g u y c → (x, w) ∈ g.adj y → IsWalkCost g u x (c + w)

/-- Walk concatenation: costs add. -/
theorem IsWalkCost.trans {g : Graph} {u v x : ℕ} {c₁ c₂ : ℚ≥0}
    (h₁ : IsWalkCost g u v c₁) (h₂ : IsWalkCost g v x c₂) :
    IsWalkCost g u x (c₁ + c₂) := by
  induction h₂ with
  | refl => simpa using h₁
  | snoc hw he ih =>
      rename_i y x c w
      have := IsWalkCost.snoc ih he
      simpa [add_assoc] using this

/-- The target of a nontrivial walk is a vertex of the graph. -/
theorem IsWalkCost.target_mem {g : Graph} (hg : g.wf) {u v : ℕ} {c : ℚ≥0}
    (h : IsWalkCost g u v c) : (u = v ∧ c = 0) ∨ v ∈ g.verts := by
  induction h with
  | refl => exact Or.inl ⟨rfl, rfl⟩
  | snoc hw he ih => exact Or.inr (hg.tgtMem _ _ he)

/-- The value a shortest-path routine must compute for the pair `(u, v)`:
a lower bound of every walk cost that is either `⊤` or attained by a walk. -/
def Computes (g : Graph) (u v : ℕ) (d : Cost) : Prop :=
  (∀ c : ℚ≥0, IsWalkCost g u v c → d ≤ (c : Cost)) ∧
    (d = ⊤ ∨ ∃ c : ℚ≥0, IsWalkCost g u v c ∧ d = (c : Cost))

/-- Any two values computing the same pair agree. -/
theorem Computes.unique {g : Graph} {u v : ℕ} {d₁ d₂ : Cost}
    (h₁ : Computes g u v d₁) (h₂ : Computes g u v d₂) : d₁ = d₂ := by
  rcases h₁ with ⟨lb₁, att₁⟩
  rcases h₂ with ⟨lb₂, att₂⟩
  rcases att₁ with h | ⟨c₁, hw₁, hc₁⟩
  · rcases att₂ with h2 | ⟨c₂, hw₂, hc₂⟩
    · rw [h, h2]
    · have h3 := lb₁ c₂ hw₂
      rw [h] at h3
      exact absurd (top_le_iff.mp h3) (WithTop.coe_ne_top)
  · rcases att₂ with h2 | ⟨c₂, hw₂, hc₂⟩
    · have h3 := lb₂ c₁ hw₁
      rw [h2] at h3
      exact absurd (top_le_iff.mp h3) (WithTop.coe_ne_top)
    · have hle : d₁ ≤ d₂ := by rw [hc₂]; exact lb₁ c₂ hw₂
      have hge : d₂ ≤ d₁ := by rw [hc₁]; exact lb₂ c₁ hw₁
      exact le_antisymm hle hge

/-! ## The lazy-deletion heap of `prototype1.py`

`heapq` stores `(cost, node)` tuples and `heappop` removes the least tuple
in lexicographic order.  We model the heap as a list together with a pop
operation that removes exactly that least tuple. -/

/-- Lexicographic order on `(cost, node)` heap tuples, as compared by
Python's `heapq`. -/
def entryLE (a b : Cost × ℕ) : Prop := a.1 < b.1 ∨ (a.1 = b.1 ∧ a.2 ≤ b.2)

instance : DecidableRel entryLE := fun a b =>
  inferInstanceAs (Decidable (a.1 < b.1 ∨ (a.1 = b.1 ∧ a.2 ≤ b.2)))

theorem entryLE_refl (a : Cost × ℕ) : entryLE a a := Or.inr ⟨rfl, le_rfl⟩

theorem entryLE_total (a b : Cost × ℕ) : entryLE a b ∨ entryLE b a := by
  rcases lt_trichotomy a.1 b.1 with h | h | h
  · exact Or.inl (Or.inl h)
  · rcases le_total a.2 b.2 with h2 | h2
    · exact Or.inl (Or.inr ⟨h, h2⟩)
    · exact Or.inr (Or.inr ⟨h.symm, h2⟩)
  · exact Or.inr (Or.inl h)

theorem entryLE_trans {a b c : Cost × ℕ} (h₁ : entryLE a b) (h₂ : entryLE b c) :
    entryLE a c := by
  rcases h₁ with h₁ | ⟨h₁, h₁2⟩ <;> rcases h₂ with h₂ | ⟨h₂, h₂2⟩
  · exact Or.inl (h₁.trans h₂)
  · exact Or.inl (h₂ ▸ h₁)
  · exact Or.inl (h₁ ▸ h₂)
  · exact Or.inr ⟨h₁.trans h₂, h₁2.trans h₂2⟩

theorem entryLE_cost {a b : Cost × ℕ} (h : entryLE a b) : a.1 ≤ b.1 := by
  rcases h with h | ⟨h, _⟩
  · exact h.le
  · exact h.le

/-- The least `(cost, node)` tuple of the heap, the one `heappop` returns. -/
def heapMin? : List (Cost × ℕ) → Option (Cost × ℕ)
  | [] => none
  | e :: es =>
    some (match heapMin? es with
      | none => e
      | some m => if entryLE m e then m else e)

theorem heapMin?_eq_none {l : List (Cost × ℕ)} : heapMin? l = none ↔ l = [] := by
  cases l with
  | nil => simp [heapMin?]
  | cons e es => simp [heapMin?]

theorem heapMin?_mem {l : List (Cost × ℕ)} {m : Cost × ℕ} (h : heapMin? l = some m) :
    m ∈ l := by
  induction l generalizing m with
  | nil => simp [heapMin?] at h
  | cons e es ih =>
      simp only [heapMin?] at h
      rcases hes : heapMin? es with _ | m'
      · rw [hes] at h
        simp at h
        simp [h]
      · rw [hes] at h
        simp at h
        by_cases hle : entryLE m' e
        · rw [if_pos hle] at h
          exact List.mem_cons_of_mem _ (ih (h ▸ hes))
        · rw [if_neg hle] at h
          simp [h]

theorem heapMin?_le {l : List (Cost × ℕ)} {m : Cost × ℕ} (h : heapMin? l = some m) :
    ∀ e ∈ l, entryLE m e := by
  induction l generalizing m with
  | nil => simp [heapMin?] at h
  | cons e es ih =>
      simp only [heapMin?] at h
      rcases hes : heapMin? es with _ | m'
      · rw [hes] at h
        simp at h
        have : es = [] := heapMin?_eq_none.mp hes
        subst this
        simp [← h, entryLE_refl]
      · rw [hes] at h
        simp at h
        by_cases hle : entryLE m' e
        · rw [if_pos hle] at h
          subst h
          intro x hx
          rcases List.mem_cons.mp hx with hx | hx
          · exact hx ▸ hle
          · exact ih hes x hx
        · rw [if_neg hle] at h
          subst h
          intro x hx
          rcases List.mem_cons.mp hx with hx | hx
          · exact hx ▸ entryLE_refl e
          · rcases entryLE_total e x with he | he
            · exact he
            · have h1 : entryLE m' x := ih hes x hx
              rcases entryLE_total e m' with h2 | h2
              · exact entryLE_trans h2 h1
              · exact absurd h2 hle

/-- `heapq.heappop`: remove and return the least tuple. -/
def heapPop (l : List (Cost × ℕ)) : Option ((Cost × ℕ) × List (Cost × ℕ)) :=
  (heapMin? l).map (fun m => (m, l.erase m))

/-! ## Dijkstra (`prototype1.py`, `dijkstra_shortest_path`) -/

/-- One relaxation step of the inner `for neighbor, edge_weight in
graph.adjacency_list[current_node]` loop: if the path through `u` improves
the neighbor's tentative distance, update it and push the neighbor. -/
def relaxEdge (u : ℕ) (st : List (Cost × ℕ) × (ℕ → Cost)) (p : ℕ × ℚ≥0) :
    List (Cost × ℕ) × (ℕ → Cost) :=
  if st.2 u + (p.2 : Cost) < st.2 p.1 then
    ((st.2 u + (p.2 : Cost), p.1) :: st.1,
      fun v => if v = p.1 then st.2 u + (p.2 : Cost) else st.2 v)
  else st

/-- The `while priority_queue:` loop.  `fuel` bounds the number of
iterations; `none` means the fuel ran out (we prove it never does for the
fuel chosen below). -/
def dijkstraLoop (g : Graph) (endNode : ℕ) :
    ℕ → List (Cost × ℕ) → (ℕ → Cost) → Option Cost
  | 0, _, _ => none
  | fuel + 1, pq, dist =>
    match heapPop pq with
    | none => some ⊤
    | some ((c, u), rest) =>
      if dist u < c then dijkstraLoop g endNode fuel rest dist
      else if u = endNode then some (dist endNode)
      else
        let st := (g.adj u).foldl (relaxEdge u) (rest, dist)
        dijkstraLoop g endNode fuel st.1 st.2

/-- The initial tentative-distance map: infinity everywhere, `0` at the
start node (`distances = {v: inf for v in graph.vertices};
distances[start_node] = 0`). -/
def dijkstraInit (start_node : ℕ) : ℕ → Cost :=
  fun v => if v = start_node then 0 else ⊤

/-- Fuel sufficient for the loop to drain: one iteration per heap entry,
and at most `1 + edgeCount` entries ever enter the heap (proved below). -/
def dijkstraFuel (g : Graph) : ℕ := g.edgeCount + 2

/-- `dijkstra_shortest_path(graph, start_node, end_node)`. -/
def dijkstra_shortest_path (g : Graph) (start_node end_node : ℕ) : Cost :=
  (dijkstraLoop g end_node (dijkstraFuel g) [((0 : Cost), start_node)]
    (dijkstraInit start_node)).getD ⊤

/-! ## Dijkstra loop invariant

The loop state is described relative to a ghost set `settled` of vertices
already extracted with a fresh (non-stale) heap entry.  `relaxSet v` is the
list of out-edges of `v` already relaxed; it is `g.adj v` for every settled
vertex except, in the middle of the relaxation loop, the vertex being
processed. -/

structure DInvGen (g : Graph) (s : ℕ) (relaxSet : ℕ → List (ℕ × ℚ≥0))
    (pq : List (Cost × ℕ)) (dist : ℕ → Cost) (settled : Finset ℕ) : Prop where
  entries_ge : ∀ e ∈ pq, dist e.2 ≤ e.1
  entries_fin : ∀ e ∈ pq, e.1 ≠ ⊤
  entries_mem : ∀ e ∈ pq, e.2 = s ∨ e.2 ∈ g.verts
  costsNodup : ∀ v, ((pq.filter (fun e => e.2 = v)).map Prod.fst).Nodup
  settled_mem : ∀ v ∈ settled, v = s ∨ v ∈ g.verts
  stale : ∀ v ∈ settled, ∀ e ∈ pq, e.2 = v → dist v < e.1
  lb_entries : ∀ v ∈ settled, ∀ e ∈ pq, dist v ≤ e.1
  lb_walk : ∀ v ∈ settled, ∀ c : ℚ≥0, IsWalkCost g s v c → dist v ≤ (c : Cost)
  relaxed : ∀ v ∈ settled, ∀ p ∈ relaxSet v, dist p.1 ≤ dist v + (p.2 : Cost)
  pending : ∀ v, v ∉ settled → dist v ≠ ⊤ → (dist v, v) ∈ pq
  sound : ∀ v, dist v = ⊤ ∨ ∃ c : ℚ≥0, IsWalkCost g s v c ∧ dist v = (c : Cost)
  dist_start : dist s = 0
  init_case : settled = ∅ → ∀ v, v ≠ s → dist v = ⊤

/-- The invariant between loop iterations: every settled vertex has all its
out-edges relaxed. -/
def DInv (g : Graph) (s : ℕ) (pq : List (Cost × ℕ)) (dist : ℕ → Cost)
    (settled : Finset ℕ) : Prop :=
  DInvGen g s g.adj pq dist settled

/-- Restricting the heap to a sub-multiset preserves the invariant as long
as the pending entries survive. -/
theorem DInvGen.sub {g : Graph} {s : ℕ} {R : ℕ → List (ℕ × ℚ≥0)}
    {pq pq' : List (Cost × ℕ)} {dist : ℕ → Cost} {settled : Finset ℕ}
    (h : DInvGen g s R pq dist settled) (hsub : pq'.Sublist pq)
    (hpend : ∀ v, v ∉ settled → dist v ≠ ⊤ → (dist v, v) ∈ pq') :
    DInvGen g s R pq' dist settled where
  entries_ge := fun e he => h.entries_ge e (hsub.subset he)
  entries_fin := fun e he => h.entries_fin e (hsub.subset he)
  entries_mem := fun e he => h.entries_mem e (hsub.subset he)
  costsNodup := fun v => (h.costsNodup v).sublist ((hsub.filter _).map _)
  settled_mem := h.settled_mem
  stale := fun v hv e he => h.stale v hv e (hsub.subset he)
  lb_entries := fun v hv e he => h.lb_entries v hv e (hsub.subset he)
  lb_walk := h.lb_walk
  relaxed := h.relaxed
  pending := hpend
  sound := h.sound
  dist_start := h.dist_start
  init_case := h.init_case

/-- After removing one copy of `(c, u)`, every remaining entry for `u` has
a different cost (costs of entries for a fixed node are distinct). -/
theorem erase_cost_ne {pq : List (Cost × ℕ)} {c : Cost} {u : ℕ}
    (hnd : ((pq.filter (fun e => e.2 = u)).map Prod.fst).Nodup)
    (hm : (c, u) ∈ pq) :
    ∀ e ∈ pq.erase (c, u), e.2 = u → e.1 ≠ c := by
  have hperm : pq.Perm ((c, u) :: pq.erase (c, u)) := List.perm_cons_erase hm
  have hpf : (pq.filter (fun e => e.2 = u)).Perm
      (((c, u) :: pq.erase (c, u)).filter (fun e => e.2 = u)) := hperm.filter _
  have hnd2 : ((((c, u) :: pq.erase (c, u)).filter (fun e => e.2 = u)).map
      Prod.fst).Nodup := (hnd.perm (hpf.map _))
  simp only [List.filter_cons, decide_eq_true_eq] at hnd2
  rw [if_pos (by trivial)] at hnd2
  simp only [List.map_cons] at hnd2
  have hni := (List.nodup_cons.mp hnd2).1
  intro e he h2 hec
  apply hni
  have : e ∈ (pq.erase (c, u)).filter (fun e => e.2 = u) :=
    List.mem_filter.mpr ⟨he, by simp [h2]⟩
  have := List.mem_map_of_mem Prod.fst this
  rw [hec] at this
  exact this

/-- Dropping a stale entry preserves the loop invariant. -/
theorem DInv.erase_stale {g : Graph} {s : ℕ} {pq : List (Cost × ℕ)}
    {dist : ℕ → Cost} {settled : Finset ℕ} {c : Cost} {u : ℕ}
    (h : DInv g s pq dist settled) (hm : (c, u) ∈ pq) (hst : dist u < c) :
    DInv g s (pq.erase (c, u)) dist settled := by
  refine DInvGen.sub h (List.erase_sublist _ _) ?_
  intro v hv hfin
  have hin := h.pending v hv hfin
  have hne : (dist v, v) ≠ (c, u) := by
    intro heq
    rw [Prod.mk.injEq] at heq
    obtain ⟨h1, h2⟩ := heq
    subst h2
    rw [h1] at hst
    exact lt_irrefl _ hst
  exact (List.mem_erase_of_ne (l := pq) hne).mpr hin

/-- Cut lemma: any walk from the source either already has its cost tracked
in `dist` at its endpoint, or crosses the heap at cost at least `cm`, a
lower bound of all heap-entry costs. -/
theorem dijkstra_cut {g : Graph} {s : ℕ} {pq : List (Cost × ℕ)}
    {dist : ℕ → Cost} {settled : Finset ℕ}
    (inv : DInv g s pq dist settled) (cm : Cost)
    (hmin : ∀ e ∈ pq, cm ≤ e.1) :
    ∀ x (c : ℚ≥0), IsWalkCost g s x c → dist x ≤ (c : Cost) ∨ cm ≤ (c : Cost) := by
  intro x c hw
  induction hw with
  | refl =>
      left
      rw [inv.dist_start]
      exact zero_le _
  | @snoc y x c w hwalk hedge ih =>
      rcases ih with ih | ih
      · by_cases hy : y ∈ settled
        · left
          calc dist x ≤ dist y + (w : Cost) := inv.relaxed y hy _ hedge
            _ ≤ (c : Cost) + (w : Cost) := add_le_add_right ih _
            _ = ((c + w : ℚ≥0) : Cost) := by rw [WithTop.coe_add]
        · right
          have hfin : dist y ≠ ⊤ := by
            intro htop
            rw [htop] at ih
            exact absurd (top_le_iff.mp ih) WithTop.coe_ne_top
          have hin := inv.pending y hy hfin
          calc cm ≤ dist y := hmin _ hin
            _ ≤ (c : Cost) := ih
            _ ≤ ((c + w : ℚ≥0) : Cost) := by
                rw [WithTop.coe_add]; exact self_le_add_right _ _
      · right
        calc cm ≤ (c : Cost) := ih
          _ ≤ ((c + w : ℚ≥0) : Cost) := by
              rw [WithTop.coe_add]; exact self_le_add_right _ _

/-- The relax set during the processing of `u`: the edges of `u` already
relaxed, and all edges of every other settled vertex. -/
def relaxSetAt (g : Graph) (u : ℕ) (done : List (ℕ × ℚ≥0)) : ℕ → List (ℕ × ℚ≥0) :=
  fun v => if v = u then done else g.adj v

/-- One relaxation step preserves the mid-loop invariant. -/
theorem relaxEdge_pres {g : Graph} (hg : g.wf) {s u : ℕ} {settled : Finset ℕ}
    {done : List (ℕ × ℚ≥0)} {q : List (Cost × ℕ)} {d : ℕ → Cost}
    {p : ℕ × ℚ≥0} (hp : p ∈ g.adj u)
    (inv : DInvGen g s (relaxSetAt g u done) q d (insert u settled))
    (hcur : ∀ v ∈ insert u settled, d v ≤ d u) :
    DInvGen g s (relaxSetAt g u (done ++ [p])) (relaxEdge u (q, d) p).1
        (relaxEdge u (q, d) p).2 (insert u settled) ∧
    (∀ v ∈ insert u settled,
      (relaxEdge u (q, d) p).2 v ≤ (relaxEdge u (q, d) p).2 u) ∧
    (relaxEdge u (q, d) p).1.length ≤ q.length + 1 ∧
    (∀ v ∈ insert u settled, (relaxEdge u (q, d) p).2 v = d v) := by
  by_cases himp : d u + (p.2 : Cost) < d p.1
  case neg =>
    have hst : relaxEdge u (q, d) p = (q, d) := by
      simp only [relaxEdge, if_neg himp]
    rw [hst]
    refine ⟨?_, hcur, Nat.le_succ _, fun v _ => rfl⟩
    refine ⟨inv.entries_ge, inv.entries_fin, inv.entries_mem, inv.costsNodup,
      inv.settled_mem, inv.stale, inv.lb_entries, inv.lb_walk, ?_, inv.pending,
      inv.sound, inv.dist_start, inv.init_case⟩
    intro v hv e he
    by_cases hvu : v = u
    · subst hvu
      simp [relaxSetAt] at he
      rcases he with he | he
      · exact inv.relaxed v hv e (by simp [relaxSetAt, he])
      · subst he
        exact not_lt.mp himp
    · exact inv.relaxed v hv e (by simpa [relaxSetAt, if_neg hvu] using he)
  case pos =>
    have hkey : p.1 ∉ insert u settled := by
      intro hmem
      rcases Finset.mem_insert.mp hmem with hpu | hps
      · rw [hpu] at himp
        exact absurd himp (not_lt.mpr (self_le_add_right _ _))
      · rcases inv.sound u with htop | ⟨cu, hwu, hdu⟩
        · rw [htop, top_add] at himp
          exact absurd himp not_top_lt
        · have hw2 : IsWalkCost g s p.1 (cu + p.2) := IsWalkCost.snoc hwu hp
          have hlb := inv.lb_walk p.1 (Finset.mem_insert_of_mem hps) _ hw2
          rw [WithTop.coe_add, ← hdu] at hlb
          exact absurd himp (not_lt.mpr hlb)
    have hpu : p.1 ≠ u := fun h => hkey (h ▸ Finset.mem_insert_self u settled)
    have hst : relaxEdge u (q, d) p =
        ((d u + (p.2 : Cost), p.1) :: q,
          fun v => if v = p.1 then d u + (p.2 : Cost) else d v) := by
      simp only [relaxEdge, if_pos himp]
    rw [hst]
    dsimp only
    set nc := d u + (p.2 : Cost) with hnc
    set d2 : ℕ → Cost := fun v => if v = p.1 then nc else d v with hd2
    have hd2p : d2 p.1 = nc := by simp [hd2]
    have hd2other : ∀ v, v ≠ p.1 → d2 v = d v := by
      intro v hv
      simp [hd2, if_neg hv]
    have hd2mono : ∀ v, d2 v ≤ d v := by
      intro v
      by_cases hv : v = p.1
      · subst hv
        rw [hd2p]
        exact himp.le
      · rw [hd2other v hv]
    have hfrozen : ∀ v ∈ insert u settled, d2 v = d v := by
      intro v hv
      exact hd2other v (fun h => hkey (h ▸ hv))
    have hd2u : d2 u = d u := hd2other u (fun h => hpu h.symm)
    have hnc_ne_top : nc ≠ ⊤ := ne_top_of_lt himp
    have hnc_walk : ∃ c : ℚ≥0, IsWalkCost g s p.1 c ∧ nc = (c : Cost) := by
      rcases inv.sound u with htop | ⟨cu, hwu, hdu⟩
      · rw [hnc, htop, top_add] at hnc_ne_top ⊢
        exact absurd rfl hnc_ne_top
      · exact ⟨cu + p.2, IsWalkCost.snoc hwu hp, by rw [hnc, hdu, WithTop.coe_add]⟩
    constructor
    · refine ⟨?_, ?_, ?_, ?_, inv.settled_mem, ?_, ?_, ?_, ?_, ?_, ?_, ?_, ?_⟩
      · intro e he
        rcases List.mem_cons.mp he with he | he
        · subst he
          show d2 p.1 ≤ nc
          rw [hd2p]
        · exact le_trans (hd2mono e.2) (inv.entries_ge e he)
      · intro e he
        rcases List.mem_cons.mp he with he | he
        · subst he
          exact hnc_ne_top
        · exact inv.entries_fin e he
      · intro e he
        rcases List.mem_cons.mp he with he | he
        · subst he
          exact Or.inr (hg.tgtMem u p hp)
        · exact inv.entries_mem e he
      · intro v
        by_cases hv : v = p.1
        · subst hv
          rw [List.filter_cons]
          simp only [decide_eq_true_eq]
          rw [if_pos (by trivial)]
          simp only [List.map_cons]
          refine List.nodup_cons.mpr ⟨?_, inv.costsNodup _⟩
          intro hin
          rcases List.mem_map.mp hin with ⟨e, hef, hec⟩
          rcases List.mem_filter.mp hef with ⟨heq, hev⟩
          simp only [decide_eq_true_eq] at hev
          have h5 := inv.entries_ge e heq
          rw [hev, hec] at h5
          exact absurd himp (not_lt.mpr h5)
        · rw [List.filter_cons]
          simp only [decide_eq_true_eq]
          rw [if_neg (by simpa using fun h => hv h.symm)]
          exact inv.costsNodup v
      · intro v hv e he
        rcases List.mem_cons.mp he with he | he
        · subst he
          intro hev
          have hpv : p.1 = v := hev
          rw [hpv] at hkey
          exact absurd hv hkey
        · intro hev
          rw [hfrozen v hv]
          exact inv.stale v hv e he hev
      · intro v hv e he
        rcases List.mem_cons.mp he with he | he
        · subst he
          show d2 v ≤ nc
          rw [hfrozen v hv, hnc]
          exact le_trans (hcur v hv) (self_le_add_right _ _)
        · rw [hfrozen v hv]
          exact inv.lb_entries v hv e he
      · intro v hv c hc
        rw [hfrozen v hv]
        exact inv.lb_walk v hv c hc
      · intro v hv e he
        by_cases hvu : v = u
        · subst hvu
          simp [relaxSetAt] at he
          rcases he with he | he
          · calc d2 e.1 ≤ d e.1 := hd2mono _
              _ ≤ d v + (e.2 : Cost) := inv.relaxed v hv e (by simp [relaxSetAt, he])
              _ = d2 v + (e.2 : Cost) := by rw [hd2u]
          · subst he
            rw [hd2p, hd2u, hnc]
        · have he2 : e ∈ g.adj v := by simpa [relaxSetAt, if_neg hvu] using he
          calc d2 e.1 ≤ d e.1 := hd2mono _
            _ ≤ d v + (e.2 : Cost) :=
              inv.relaxed v hv e (by simp [relaxSetAt, if_neg hvu, he2])
            _ = d2 v + (e.2 : Cost) := by rw [hfrozen v hv]
      · intro v hv hfin
        by_cases hvp : v = p.1
        · subst hvp
          rw [hd2p]
          exact List.mem_cons_self _ _
        · rw [hd2other v hvp] at hfin ⊢
          exact List.mem_cons_of_mem _ (inv.pending v hv hfin)
      · intro v
        by_cases hvp : v = p.1
        · subst hvp
          rw [hd2p]
          rcases hnc_walk with ⟨c, hw, hc⟩
          exact Or.inr ⟨c, hw, hc⟩
        · rw [hd2other v hvp]
          exact inv.sound v
      · by_cases hsp : s = p.1
        · exfalso
          rw [← hsp] at himp
          rw [inv.dist_start] at himp
          exact absurd himp (not_lt.mpr (zero_le _))
        · rw [hd2other s hsp]
          exact inv.dist_start
      · intro h
        exact absurd h (Finset.insert_ne_empty u settled)
    · refine ⟨?_, ?_, ?_⟩
      · intro v hv
        show d2 v ≤ d2 u
        rw [hfrozen v hv, hd2u]
        exact hcur v hv
      · simp
      · intro v hv
        show d2 v = d v
        exact hfrozen v hv

/-- The whole relaxation loop preserves the invariant, pushes at most one
entry per edge, and never touches the distances of settled vertices. -/
theorem relax_fold {g : Graph} (hg : g.wf) {s u : ℕ} {settled : Finset ℕ} :
    ∀ (l done : List (ℕ × ℚ≥0)) (q : List (Cost × ℕ)) (d : ℕ → Cost),
      (∀ p ∈ l, p ∈ g.adj u) →
      DInvGen g s (relaxSetAt g u done) q d (insert u settled) →
      (∀ v ∈ insert u settled, d v ≤ d u) →
      DInvGen g s (relaxSetAt g u (done ++ l)) (l.foldl (relaxEdge u) (q, d)).1
          (l.foldl (relaxEdge u) (q, d)).2 (insert u settled) ∧
      (l.foldl (relaxEdge u) (q, d)).1.length ≤ q.length + l.length ∧
      (∀ v ∈ insert u settled, (l.foldl (relaxEdge u) (q, d)).2 v = d v) := by
  intro l
  induction l with
  | nil =>
      intro done q d _ inv hcur
      refine ⟨by simpa using inv, by simp, fun v _ => rfl⟩
  | cons p l ih =>
      intro done q d hmem inv hcur
      have hp : p ∈ g.adj u := hmem p (List.mem_cons_self _ _)
      obtain ⟨inv1, hcur1, hlen1, hfroz1⟩ := relaxEdge_pres hg hp inv hcur
      have hfold : (p :: l).foldl (relaxEdge u) (q, d) =
          l.foldl (relaxEdge u) (relaxEdge u (q, d) p) := rfl
      have hpair : relaxEdge u (q, d) p =
          ((relaxEdge u (q, d) p).1, (relaxEdge u (q, d) p).2) := rfl
      rw [hfold, hpair]
      obtain ⟨inv2, hlen2, hfroz2⟩ :=
        ih (done ++ [p]) (relaxEdge u (q, d) p).1 (relaxEdge u (q, d) p).2
          (fun x hx => hmem x (List.mem_cons_of_mem _ hx)) inv1 hcur1
      refine ⟨?_, ?_, ?_⟩
      · have harr : (done ++ [p]) ++ l = done ++ p :: l := by
          rw [List.append_assoc, List.singleton_append]
        rw [← harr]
        exact inv2
      · calc (l.foldl (relaxEdge u) ((relaxEdge u (q, d) p).1,
              (relaxEdge u (q, d) p).2)).1.length
            ≤ (relaxEdge u (q, d) p).1.length + l.length := hlen2
          _ ≤ q.length + 1 + l.length := by omega
          _ = q.length + (p :: l).length := by simp [List.length_cons]; omega
      · intro v hv
        rw [hfroz2 v hv, hfroz1 v hv]

/-- Processing a freshly popped vertex: the relaxation loop re-establishes
the loop invariant with the vertex settled. -/
theorem dijkstra_settle {g : Graph} (hg : g.wf) {s : ℕ} {pq : List (Cost × ℕ)}
    {dist : ℕ → Cost} {settled : Finset ℕ} {c : Cost} {u : ℕ}
    (inv : DInv g s pq dist settled)
    (hpop : heapMin? pq = some (c, u)) (hns : ¬ dist u < c) :
    DInv g s ((g.adj u).foldl (relaxEdge u) (pq.erase (c, u), dist)).1
        ((g.adj u).foldl (relaxEdge u) (pq.erase (c, u), dist)).2
        (insert u settled) ∧
    u ∉ settled ∧
    ((g.adj u).foldl (relaxEdge u) (pq.erase (c, u), dist)).1.length ≤
      (pq.erase (c, u)).length + (g.adj u).length ∧
    (u = s ∨ u ∈ g.verts) := by
  have hm : (c, u) ∈ pq := heapMin?_mem hpop
  have hdu : dist u = c := le_antisymm (inv.entries_ge _ hm) (not_lt.mp hns)
  have hu : u ∉ settled := by
    intro hus
    exact absurd (inv.stale u hus _ hm rfl) (hdu ▸ lt_irrefl _)
  have humem : u = s ∨ u ∈ g.verts := inv.entries_mem _ hm
  have hminle : ∀ e ∈ pq, c ≤ e.1 := fun e he => entryLE_cost (heapMin?_le hpop e he)
  have hcostne := erase_cost_ne (inv.costsNodup u) hm
  have hlbu : ∀ cw : ℚ≥0, IsWalkCost g s u cw → dist u ≤ (cw : Cost) := by
    intro cw hw
    rcases dijkstra_cut inv c hminle u cw hw with h | h
    · exact h
    · rw [hdu]
      exact h
  have inv0 : DInvGen g s (relaxSetAt g u []) (pq.erase (c, u)) dist
      (insert u settled) := by
    have hsubl := List.erase_sublist (c, u) pq
    refine ⟨?_, ?_, ?_, ?_, ?_, ?_, ?_, ?_, ?_, ?_, inv.sound, inv.dist_start, ?_⟩
    · exact fun e he => inv.entries_ge e (hsubl.subset he)
    · exact fun e he => inv.entries_fin e (hsubl.subset he)
    · exact fun e he => inv.entries_mem e (hsubl.subset he)
    · exact fun v => (inv.costsNodup v).sublist ((hsubl.filter _).map _)
    · intro v hv
      rcases Finset.mem_insert.mp hv with hv | hv
      · exact hv ▸ humem
      · exact inv.settled_mem v hv
    · intro v hv e he hev
      rcases Finset.mem_insert.mp hv with hv | hv
      · subst hv
        subst hev
        have h1 : dist e.2 ≤ e.1 := inv.entries_ge e (hsubl.subset he)
        have h2 : e.1 ≠ c := hcostne e he rfl
        rw [hdu]
        rcases lt_or_eq_of_le (hdu ▸ h1) with h | h
        · exact h
        · exact absurd h.symm h2
      · exact inv.stale v hv e (hsubl.subset he) hev
    · intro v hv e he
      rcases Finset.mem_insert.mp hv with hv | hv
      · subst hv
        rw [hdu]
        exact hminle e (hsubl.subset he)
      · exact inv.lb_entries v hv e (hsubl.subset he)
    · intro v hv cw hw
      rcases Finset.mem_insert.mp hv with hv | hv
      · subst hv
        exact hlbu cw hw
      · exact inv.lb_walk v hv cw hw
    · intro v hv e he
      rcases Finset.mem_insert.mp hv with hv | hv
      · subst hv
        simp [relaxSetAt] at he
      · have hvu : v ≠ u := by
          intro h
          exact hu (h ▸ hv)
        exact inv.relaxed v hv e (by simpa [relaxSetAt, if_neg hvu] using he)
    · intro v hv hfin
      have hvs : v ∉ settled := fun h => hv (Finset.mem_insert_of_mem h)
      have hvu : v ≠ u := fun h => hv (h ▸ Finset.mem_insert_self _ _)
      have hin := inv.pending v hvs hfin
      have hne : (dist v, v) ≠ (c, u) := by
        intro heq
        rw [Prod.mk.injEq] at heq
        exact hvu heq.2
      exact (List.mem_erase_of_ne (l := pq) hne).mpr hin
    · intro h
      exact absurd h (Finset.insert_ne_empty u settled)
  have hcur0 : ∀ v ∈ insert u settled, dist v ≤ dist u := by
    intro v hv
    rcases Finset.mem_insert.mp hv with hv | hv
    · exact hv ▸ le_rfl
    · rw [hdu]
      exact inv.lb_entries v hv _ hm
  obtain ⟨inv1, hlen, _⟩ :=
    relax_fold hg (g.adj u) [] (pq.erase (c, u)) dist (fun p hp => hp) inv0 hcur0
  refine ⟨?_, hu, hlen, humem⟩
  have hR : relaxSetAt g u ([] ++ g.adj u) = g.adj := by
    funext v
    by_cases hv : v = u
    · subst hv
      simp [relaxSetAt]
    · simp [relaxSetAt, if_neg hv]
  rw [hR] at inv1
  exact inv1

/-- The invariant holds at loop entry. -/
theorem DInv_init (g : Graph) (s : ℕ) :
    DInv g s [((0 : Cost), s)] (dijkstraInit s) ∅ := by
  refine ⟨?_, ?_, ?_, ?_, ?_, ?_, ?_, ?_, ?_, ?_, ?_, ?_, ?_⟩
  · intro e he
    rcases List.mem_singleton.mp he with rfl
    simp [dijkstraInit]
  · intro e he
    rcases List.mem_singleton.mp he with rfl
    simp
  · intro e he
    rcases List.mem_singleton.mp he with rfl
    exact Or.inl rfl
  · intro v
    rcases Nat.decEq s v with h | h <;> simp [List.filter, h]
  · intro v hv
    exact absurd hv (Finset.not_mem_empty v)
  · intro v hv
    exact absurd hv (Finset.not_mem_empty v)
  · intro v hv
    exact absurd hv (Finset.not_mem_empty v)
  · intro v hv
    exact absurd hv (Finset.not_mem_empty v)
  · intro v hv
    exact absurd hv (Finset.not_mem_empty v)
  · intro v _ hfin
    by_cases hvs : v = s
    · subst hvs
      simp [dijkstraInit]
    · exact absurd (by simp [dijkstraInit, if_neg hvs]) hfin
  · intro v
    by_cases hvs : v = s
    · subst hvs
      refine Or.inr ⟨0, IsWalkCost.refl, ?_⟩
      simp [dijkstraInit]
    · exact Or.inl (by simp [dijkstraInit, if_neg hvs])
  · simp [dijkstraInit]
  · intro _ v hv
    simp [dijkstraInit, if_neg hv]

/-- Out-degree mass of the not-yet-settled vertices: the fuel potential. -/
def settledBound (g : Graph) (settled : Finset ℕ) : ℕ :=
  ∑ x ∈ g.verts.toFinset \ settled, (g.adj x).length

theorem settledBound_empty {g : Graph} (hg : g.wf) :
    settledBound g ∅ = g.edgeCount := by
  unfold settledBound Graph.edgeCount
  rw [Finset.sdiff_empty]
  exact List.sum_toFinset _ hg.nodup

theorem settledBound_insert {g : Graph} {settled : Finset ℕ} {u : ℕ}
    (hv : u ∈ g.verts) (hu : u ∉ settled) :
    settledBound g settled = (g.adj u).length + settledBound g (insert u settled) := by
  unfold settledBound
  rw [Finset.sdiff_insert]
  exact (Finset.add_sum_erase _ _
    (Finset.mem_sdiff.mpr ⟨List.mem_toFinset.mpr hv, hu⟩)).symm

theorem settledBound_insert_le (g : Graph) (settled : Finset ℕ) (u : ℕ) :
    settledBound g (insert u settled) ≤ settledBound g settled :=
  Finset.sum_le_sum_of_subset
    (Finset.sdiff_subset_sdiff (Finset.Subset.refl _) (Finset.subset_insert u settled))

/-- The fuel never runs out: the loop always returns a value when given
`1 + |heap| + (out-degree mass of unsettled vertices)` iterations. -/
theorem dijkstraLoop_isSome {g : Graph} (hg : g.wf) {s endNode : ℕ} :
    ∀ (fuel : ℕ) (pq : List (Cost × ℕ)) (dist : ℕ → Cost) (settled : Finset ℕ),
      DInv g s pq dist settled →
      1 + pq.length + settledBound g settled ≤ fuel →
      ∃ r, dijkstraLoop g endNode fuel pq dist = some r := by
  intro fuel
  induction fuel with
  | zero =>
      intro pq dist settled _ hb
      omega
  | succ fuel ih =>
      intro pq dist settled inv hb
      rcases hpm : heapMin? pq with _ | ⟨c, u⟩
      · exact ⟨⊤, by simp [dijkstraLoop, heapPop, hpm]⟩
      · have hpop : heapPop pq = some ((c, u), pq.erase (c, u)) := by
          simp [heapPop, hpm]
        have hm := heapMin?_mem hpm
        have hlen : pq.length = (pq.erase (c, u)).length + 1 := by
          have h1 := List.length_erase_of_mem hm
          have h2 : pq ≠ [] := List.ne_nil_of_mem hm
          have h3 : 0 < pq.length := List.length_pos.mpr h2
          omega
        by_cases hst : dist u < c
        · obtain ⟨r, hr⟩ := ih (pq.erase (c, u)) dist settled
            (inv.erase_stale hm hst) (by omega)
          exact ⟨r, by simp [dijkstraLoop, hpop, if_pos hst, hr]⟩
        · by_cases hend : u = endNode
          · subst hend
            exact ⟨dist u, by simp [dijkstraLoop, hpop, if_neg hst]⟩
          · obtain ⟨inv2, hu, hlen2, humem⟩ := dijkstra_settle hg inv hpm hst
            have hbound : 1 + ((g.adj u).foldl (relaxEdge u)
                (pq.erase (c, u), dist)).1.length +
                settledBound g (insert u settled) ≤ fuel := by
              by_cases hvu : u ∈ g.verts
              · have heq := settledBound_insert hvu hu
                omega
              · have hadj : g.adj u = [] := hg.adjEmpty u hvu
                have hst2 : ((g.adj u).foldl (relaxEdge u)
                    (pq.erase (c, u), dist)).1.length = (pq.erase (c, u)).length := by
                  rw [hadj]
                  rfl
                have hle := settledBound_insert_le g settled u
                omega
            obtain ⟨r, hr⟩ := ih _ _ (insert u settled) inv2 hbound
            refine ⟨r, ?_⟩
            simp only [dijkstraLoop, hpop, if_neg hst, if_neg hend]
            exact hr

/-- Whatever the loop returns computes the shortest distance to the target. -/
theorem dijkstraLoop_correct {g : Graph} (hg : g.wf) {s endNode : ℕ} :
    ∀ (fuel : ℕ) (pq : List (Cost × ℕ)) (dist : ℕ → Cost) (settled : Finset ℕ)
      (r : Cost),
      DInv g s pq dist settled → endNode ∉ settled →
      dijkstraLoop g endNode fuel pq dist = some r →
      Computes g s endNode r := by
  intro fuel
  induction fuel with
  | zero =>
      intro pq dist settled r _ _ h
      simp [dijkstraLoop] at h
  | succ fuel ih =>
      intro pq dist settled r inv hend hrun
      rcases hpm : heapMin? pq with _ | ⟨c, u⟩
      · have hpq : pq = [] := heapMin?_eq_none.mp hpm
        subst hpq
        have hr : r = ⊤ := by
          simp [dijkstraLoop, heapPop, hpm] at hrun
          exact hrun.symm
        subst hr
        have hdend : dist endNode = ⊤ := by
          by_contra hfin
          exact absurd (inv.pending endNode hend hfin) (List.not_mem_nil _)
        constructor
        · intro cw hw
          exfalso
          rcases dijkstra_cut inv ⊤
              (fun e he => absurd he (List.not_mem_nil _)) endNode cw hw with h | h
          · rw [hdend] at h
            exact absurd (top_le_iff.mp h) WithTop.coe_ne_top
          · exact absurd (top_le_iff.mp h) WithTop.coe_ne_top
        · exact Or.inl rfl
      · have hpop : heapPop pq = some ((c, u), pq.erase (c, u)) := by
          simp [heapPop, hpm]
        have hm := heapMin?_mem hpm
        by_cases hst : dist u < c
        · have hrun2 : dijkstraLoop g endNode fuel (pq.erase (c, u)) dist = some r := by
            simpa [dijkstraLoop, hpop, if_pos hst] using hrun
          exact ih _ _ _ r (inv.erase_stale hm hst) hend hrun2
        · by_cases huend : u = endNode
          · subst huend
            have hr : r = dist u := by
              simp [dijkstraLoop, hpop, if_neg hst] at hrun
              exact hrun.symm
            subst hr
            have hdu : dist u = c := le_antisymm (inv.entries_ge _ hm) (not_lt.mp hst)
            constructor
            · intro cw hw
              rcases dijkstra_cut inv c
                  (fun e he => entryLE_cost (heapMin?_le hpm e he)) u cw hw with h | h
              · exact h
              · rw [hdu]
                exact h
            · have hfin : dist u ≠ ⊤ := hdu ▸ inv.entries_fin _ hm
              rcases inv.sound u with htop | ⟨cw, hw, hc⟩
              · exact absurd htop hfin
              · exact Or.inr ⟨cw, hw, hc⟩
          · obtain ⟨inv2, hu, _, _⟩ := dijkstra_settle hg inv hpm hst
            have hrun2 : dijkstraLoop g endNode fuel
                ((g.adj u).foldl (relaxEdge u) (pq.erase (c, u), dist)).1
                ((g.adj u).foldl (relaxEdge u) (pq.erase (c, u), dist)).2 = some r := by
              simpa [dijkstraLoop, hpop, if_neg hst, if_neg huend] using hrun
            refine ih _ _ _ r inv2 ?_ hrun2
            intro hmem
            rcases Finset.mem_insert.mp hmem with h | h
            · exact huend h.symm
            · exact hend h

/-- `dijkstra_shortest_path` computes the shortest walk distance. -/
theorem dijkstra_computes {g : Graph} (hg : g.wf) (s t : ℕ) :
    Computes g s t (dijkstra_shortest_path g s t) := by
  have hb : 1 + ([((0 : Cost), s)]).length + settledBound g ∅ ≤ dijkstraFuel g := by
    rw [settledBound_empty hg]
    unfold dijkstraFuel
    simp
    omega
  obtain ⟨r, hr⟩ := dijkstraLoop_isSome hg (dijkstraFuel g) [((0 : Cost), s)]
    (dijkstraInit s) ∅ (DInv_init g s) hb
  have heq : dijkstra_shortest_path g s t = r := by
    unfold dijkstra_shortest_path
    rw [hr]
    rfl
  rw [heq]
  exact dijkstraLoop_correct hg (dijkstraFuel g) _ _ ∅ r (DInv_init g s)
    (Finset.not_mem_empty t) hr

/-! ## Floyd-Warshall (`prototype2.py`, `floyd_warshall_precomputation`)

The distance matrix is a total function on pairs; the Python dict holds
exactly the cells with both indices in the vertex set, and those are the
only cells the algorithm ever reads or writes. -/

/-- The initial matrix: `0` on the diagonal, infinity elsewhere. -/
def fwBase : ℕ → ℕ → Cost := fun i j => if i = j then 0 else ⊤

/-- Write one matrix cell. -/
def matUpdate (m : ℕ → ℕ → Cost) (i j : ℕ) (x : Cost) : ℕ → ℕ → Cost :=
  fun a b => if a = i ∧ b = j then x else m a b

/-- One step of the edge-loading loop: `if weight < dist_matrix[source][destination]`. -/
def fwEdgeStep (u : ℕ) (m : ℕ → ℕ → Cost) (p : ℕ × ℚ≥0) : ℕ → ℕ → Cost :=
  if (p.2 : Cost) < m u p.1 then matUpdate m u p.1 (p.2 : Cost) else m

/-- Loading all edges into the matrix (`for source, neighbors in
graph.adjacency_list.items(): ...`); sources absent from the dict have an
empty list, so iterating over all vertices is the same loop. -/
def fwEdges (g : Graph) (m : ℕ → ℕ → Cost) : ℕ → ℕ → Cost :=
  g.verts.foldl (fun m u => (g.adj u).foldl (fwEdgeStep u) m) m

/-- The innermost update: `if dist[i][k] + dist[k][j] < dist[i][j]`. -/
def fwInner (k i : ℕ) (m : ℕ → ℕ → Cost) (j : ℕ) : ℕ → ℕ → Cost :=
  if m i k + m k j < m i j then matUpdate m i j (m i k + m k j) else m

/-- One round of the outer `for k in graph.vertices` loop. -/
def fwRound (g : Graph) (m : ℕ → ℕ → Cost) (k : ℕ) : ℕ → ℕ → Cost :=
  g.verts.foldl (fun m i => g.verts.foldl (fwInner k i) m) m

/-- `floyd_warshall_precomputation(graph)`. -/
def floyd_warshall_precomputation (g : Graph) : ℕ → ℕ → Cost :=
  g.verts.foldl (fwRound g) (fwEdges g fwBase)

/-- `WalkVia g S u v c`: a walk from `u` to `v` of cost `c` decomposable
with all strictly intermediate stops in `S`.  This is the path structure
the Floyd-Warshall rounds discover. -/
inductive WalkVia (g : Graph) (S : List ℕ) : ℕ → ℕ → ℚ≥0 → Prop where
  | refl (u : ℕ) : WalkVia g S u u 0
  | edge {u : ℕ} {p : ℕ × ℚ≥0} : p ∈ g.adj u → WalkVia g S u p.1 p.2
  | comp {u k v : ℕ} {c₁ c₂ : ℚ≥0} : k ∈ S → WalkVia g S u k c₁ →
      WalkVia g S k v c₂ → WalkVia g S u v (c₁ + c₂)

/-- A via-walk is a walk. -/
theorem WalkVia.toWalk {g : Graph} {S : List ℕ} {u v : ℕ} {c : ℚ≥0}
    (h : WalkVia g S u v c) : IsWalkCost g u v c := by
  induction h with
  | refl u => exact IsWalkCost.refl
  | edge he => simpa using IsWalkCost.snoc IsWalkCost.refl he
  | comp hk h1 h2 ih1 ih2 => exact ih1.trans ih2

/-- Every walk is a via-walk through the full vertex set. -/
theorem IsWalkCost.toVia {g : Graph} (hg : g.wf) {a b : ℕ} {c : ℚ≥0}
    (h : IsWalkCost g a b c) : WalkVia g g.verts a b c := by
  induction h with
  | refl => exact WalkVia.refl a
  | @snoc y x c w hwalk hedge ih =>
      rcases hwalk.target_mem hg with ⟨hay, hc0⟩ | hyv
      · subst hay
        subst hc0
        have := WalkVia.edge (g := g) (S := g.verts) hedge
        simpa using this
      · exact WalkVia.comp hyv ih (WalkVia.edge hedge)

/-- A matrix is pointwise bounded by another. -/
def matLE (m₁ m₂ : ℕ → ℕ → Cost) : Prop := ∀ a b, m₁ a b ≤ m₂ a b

theorem matLE_refl (m : ℕ → ℕ → Cost) : matLE m m := fun _ _ => le_rfl

theorem matLE_trans {m₁ m₂ m₃ : ℕ → ℕ → Cost} (h₁ : matLE m₁ m₂)
    (h₂ : matLE m₂ m₃) : matLE m₁ m₃ := fun a b => (h₁ a b).trans (h₂ a b)

theorem fwEdgeStep_le (u : ℕ) (m : ℕ → ℕ → Cost) (p : ℕ × ℚ≥0) :
    matLE (fwEdgeStep u m p) m := by
  intro a b
  unfold fwEdgeStep matUpdate
  by_cases h : (p.2 : Cost) < m u p.1
  · rw [if_pos h]
    by_cases hab : a = u ∧ b = p.1
    · rw [if_pos hab]
      rw [hab.1, hab.2]
      exact h.le
    · rw [if_neg hab]
  · rw [if_neg h]

theorem fwInner_le (k i : ℕ) (m : ℕ → ℕ → Cost) (j : ℕ) :
    matLE (fwInner k i m j) m := by
  intro a b
  unfold fwInner matUpdate
  by_cases h : m i k + m k j < m i j
  · rw [if_pos h]
    by_cases hab : a = i ∧ b = j
    · rw [if_pos hab]
      rw [hab.1, hab.2]
      exact h.le
    · rw [if_neg hab]
  · rw [if_neg h]

theorem foldl_matLE {α : Type} {f : (ℕ → ℕ → Cost) → α → ℕ → ℕ → Cost}
    (hf : ∀ m x, matLE (f m x) m) :
    ∀ (l : List α) (m : ℕ → ℕ → Cost), matLE (l.foldl f m) m := by
  intro l
  induction l with
  | nil => intro m; exact matLE_refl m
  | cons x l ih =>
      intro m
      exact matLE_trans (ih (f m x)) (hf m x)

theorem fwEdges_le (g : Graph) (m : ℕ → ℕ → Cost) : matLE (fwEdges g m) m := by
  unfold fwEdges
  exact foldl_matLE (fun m u => foldl_matLE (fwEdgeStep_le u) (g.adj u) m) g.verts m

theorem fwRound_le (g : Graph) (m : ℕ → ℕ → Cost) (k : ℕ) :
    matLE (fwRound g m k) m := by
  unfold fwRound
  exact foldl_matLE (fun m i => foldl_matLE (fwInner_le k i) g.verts m) g.verts m

/-- The inner `for j` loop of one Floyd-Warshall round, characterized:
cells `(i, j)` for `j` in the list become the min-plus update read off the
round's entry matrix `m₀`; nothing else moves.  Row `k` and column `k` are
fixed because `m₀ k k = 0`. -/
theorem fwInner_fold {k i : ℕ} {m₀ : ℕ → ℕ → Cost} (hkk : m₀ k k = 0) :
    ∀ (js : List ℕ) (m1 : ℕ → ℕ → Cost), js.Nodup →
      (∀ b, m1 k b = m₀ k b) →
      (∀ b ∈ js, m1 i b = m₀ i b) →
      m1 i k = m₀ i k →
      (∀ a b, ¬(a = i ∧ b ∈ js) → (js.foldl (fwInner k i) m1) a b = m1 a b) ∧
      (∀ b ∈ js, (js.foldl (fwInner k i) m1) i b =
        min (m₀ i b) (m₀ i k + m₀ k b)) := by
  intro js
  induction js with
  | nil =>
      intro m1 _ _ _ _
      exact ⟨fun a b _ => rfl, fun b hb => absurd hb (List.not_mem_nil b)⟩
  | cons j js ih =>
      intro m1 hnd hrowk hrowi hik
      have hndj : j ∉ js := (List.nodup_cons.mp hnd).1
      have hnd2 : js.Nodup := (List.nodup_cons.mp hnd).2
      have hij : m1 i j = m₀ i j := hrowi j (List.mem_cons_self _ _)
      have hkj : m1 k j = m₀ k j := hrowk j
      set m2 := fwInner k i m1 j with hm2
      have hval : m2 i j = min (m₀ i j) (m₀ i k + m₀ k j) := by
        rw [hm2]
        unfold fwInner matUpdate
        by_cases h : m1 i k + m1 k j < m1 i j
        · rw [if_pos h]
          simp only [and_self, if_pos]
          rw [hik, hkj] at h ⊢
          rw [hij] at h
          exact (min_eq_right h.le).symm
        · rw [if_neg h]
          rw [hik, hkj, hij] at h
          rw [hij]
          exact (min_eq_left (not_lt.mp h)).symm
      have huntouched : ∀ a b, ¬(a = i ∧ b = j) → m2 a b = m1 a b := by
        intro a b hab
        rw [hm2]
        unfold fwInner matUpdate
        by_cases h : m1 i k + m1 k j < m1 i j
        · rw [if_pos h, if_neg hab]
        · rw [if_neg h]
      have hminid : ∀ x : Cost, min x (x + m₀ k k) = x := by
        intro x
        rw [hkk, add_zero, min_self]
      have hminid2 : ∀ x : Cost, min x (m₀ k k + x) = x := by
        intro x
        rw [hkk, zero_add, min_self]
      have hrowk2 : ∀ b, m2 k b = m₀ k b := by
        intro b
        by_cases hki : k = i
        · by_cases hbj : b = j
          · subst hbj
            subst hki
            rw [hval, hminid2]
          · rw [huntouched k b (fun h => hbj h.2), hrowk b]
        · rw [huntouched k b (fun h => hki h.1), hrowk b]
      have hrowi2 : ∀ b ∈ js, m2 i b = m₀ i b := by
        intro b hb
        have hbj : b ≠ j := fun h => hndj (h ▸ hb)
        rw [huntouched i b (fun h => hbj h.2), hrowi b (List.mem_cons_of_mem _ hb)]
      have hik2 : m2 i k = m₀ i k := by
        by_cases hkj2 : k = j
        · subst hkj2
          rw [hval, hminid]
        · rw [huntouched i k (fun h => hkj2 h.2), hik]
      obtain ⟨hu, hv⟩ := ih m2 hnd2 hrowk2 hrowi2 hik2
      have hfold : (j :: js).foldl (fwInner k i) m1 = js.foldl (fwInner k i) m2 := rfl
      rw [hfold]
      constructor
      · intro a b hab
        have h1 : ¬(a = i ∧ b ∈ js) := fun h => hab ⟨h.1, List.mem_cons_of_mem _ h.2⟩
        have h2 : ¬(a = i ∧ b = j) := fun h => hab ⟨h.1, h.2 ▸ List.mem_cons_self _ _⟩
        rw [hu a b h1, huntouched a b h2]
      · intro b hb
        rcases List.mem_cons.mp hb with hb | hb
        · subst hb
          rw [hu i b (fun h => hndj h.2), hval]
        · exact hv b hb

/-- The `for i: for j:` double loop of one round, characterized. -/
theorem fwRow_fold {g : Graph} {k : ℕ} {m₀ : ℕ → ℕ → Cost} (hkk : m₀ k k = 0)
    (hvnd : g.verts.Nodup) :
    ∀ (is : List ℕ) (m1 : ℕ → ℕ → Cost), is.Nodup →
      (∀ b, m1 k b = m₀ k b) →
      (∀ a ∈ is, ∀ b, m1 a b = m₀ a b) →
      (∀ a b, ¬(a ∈ is ∧ b ∈ g.verts) →
        (is.foldl (fun m i => g.verts.foldl (fwInner k i) m) m1) a b = m1 a b) ∧
      (∀ a ∈ is, ∀ b ∈ g.verts,
        (is.foldl (fun m i => g.verts.foldl (fwInner k i) m) m1) a b =
          min (m₀ a b) (m₀ a k + m₀ k b)) := by
  intro is
  induction is with
  | nil =>
      intro m1 _ _ _
      exact ⟨fun a b _ => rfl, fun a ha => absurd ha (List.not_mem_nil a)⟩
  | cons i is ih =>
      intro m1 hnd hrowk hrows
      have hndi : i ∉ is := (List.nodup_cons.mp hnd).1
      have hnd2 : is.Nodup := (List.nodup_cons.mp hnd).2
      have hrowi : ∀ b ∈ g.verts, m1 i b = m₀ i b :=
        fun b _ => hrows i (List.mem_cons_self _ _) b
      have hik : m1 i k = m₀ i k := hrows i (List.mem_cons_self _ _) k
      obtain ⟨hu1, hv1⟩ := fwInner_fold hkk g.verts m1 hvnd hrowk hrowi hik
      set m2 := g.verts.foldl (fwInner k i) m1 with hm2
      have hminid2 : ∀ x : Cost, min x (m₀ k k + x) = x := by
        intro x
        rw [hkk, zero_add, min_self]
      have hrowk2 : ∀ b, m2 k b = m₀ k b := by
        intro b
        by_cases hki : k = i
        · subst hki
          by_cases hbv : b ∈ g.verts
          · rw [hv1 b hbv, hminid2]
          · rw [hu1 k b (fun h => hbv h.2), hrowk b]
        · rw [hu1 k b (fun h => hki h.1), hrowk b]
      have hrows2 : ∀ a ∈ is, ∀ b, m2 a b = m₀ a b := by
        intro a ha b
        have hai : a ≠ i := fun h => hndi (h ▸ ha)
        rw [hu1 a b (fun h => hai h.1), hrows a (List.mem_cons_of_mem _ ha) b]
      obtain ⟨hu2, hv2⟩ := ih m2 hnd2 hrowk2 hrows2
      have hfold : (i :: is).foldl (fun m i => g.verts.foldl (fwInner k i) m) m1 =
          is.foldl (fun m i => g.verts.foldl (fwInner k i) m) m2 := rfl
      rw [hfold]
      constructor
      · intro a b hab
        have h1 : ¬(a ∈ is ∧ b ∈ g.verts) :=
          fun h => hab ⟨List.mem_cons_of_mem _ h.1, h.2⟩
        have h2 : ¬(a = i ∧ b ∈ g.verts) :=
          fun h => hab ⟨h.1 ▸ List.mem_cons_self _ _, h.2⟩
        rw [hu2 a b h1, hu1 a b h2]
      · intro a ha b hb
        rcases List.mem_cons.mp ha with ha | ha
        · subst ha
          rw [hu2 a b (fun h => hndi h.1), hv1 b hb]
        · exact hv2 a ha b hb

/-- One full Floyd-Warshall round is exactly the pointwise min-plus update
on vertex cells, evaluated on the matrix at round entry. -/
theorem fwRound_eq {g : Graph} (hg : g.wf) {m : ℕ → ℕ → Cost} {k : ℕ}
    (hkk : m k k = 0) (a b : ℕ) :
    fwRound g m k a b =
      if a ∈ g.verts ∧ b ∈ g.verts then min (m a b) (m a k + m k b)
      else m a b := by
  obtain ⟨hu, hv⟩ := fwRow_fold hkk hg.nodup g.verts m hg.nodup
    (fun b => rfl) (fun a _ b => rfl)
  by_cases hab : a ∈ g.verts ∧ b ∈ g.verts
  · rw [if_pos hab]
    exact hv a hab.1 b hab.2
  · rw [if_neg hab]
    exact hu a b hab

/-- Invariant of the Floyd-Warshall outer loop after processing the
intermediate vertices in `S`. -/
structure FWInv (g : Graph) (m : ℕ → ℕ → Cost) (S : List ℕ) : Prop where
  diag : ∀ i, m i i = 0
  ssub : ∀ j ∈ S, j ∈ g.verts
  tri : ∀ j ∈ S, ∀ a ∈ g.verts, ∀ b ∈ g.verts, m a b ≤ m a j + m j b
  sound : ∀ a b, m a b = ⊤ ∨ ∃ c : ℚ≥0, IsWalkCost g a b c ∧ m a b = (c : Cost)
  ubEdge : ∀ u, ∀ p ∈ g.adj u, m u p.1 ≤ (p.2 : Cost)
  ubVia : ∀ a ∈ g.verts, ∀ b ∈ g.verts, ∀ c : ℚ≥0,
    WalkVia g S a b c → m a b ≤ (c : Cost)

theorem WalkVia.mono {g : Graph} {S S2 : List ℕ} {a b : ℕ} {c : ℚ≥0}
    (hsub : ∀ x ∈ S, x ∈ S2) (h : WalkVia g S a b c) : WalkVia g S2 a b c := by
  induction h with
  | refl u => exact WalkVia.refl u
  | edge he => exact WalkVia.edge he
  | comp hk h1 h2 ih1 ih2 => exact WalkVia.comp (hsub _ hk) ih1 ih2

/-- The invariant only depends on the membership of `S`. -/
theorem FWInv.congr {g : Graph} {m : ℕ → ℕ → Cost} {S S2 : List ℕ}
    (h : FWInv g m S) (hiff : ∀ x, x ∈ S2 ↔ x ∈ S) : FWInv g m S2 where
  diag := h.diag
  ssub := fun j hj => h.ssub j ((hiff j).mp hj)
  tri := fun j hj => h.tri j ((hiff j).mp hj)
  sound := h.sound
  ubEdge := h.ubEdge
  ubVia := fun a ha b hb c hw =>
    h.ubVia a ha b hb c (hw.mono (fun x hx => (hiff x).mp hx))

/-- One round preserves the invariant and settles the new intermediate. -/
theorem FWInv_round {g : Graph} (hg : g.wf) {m : ℕ → ℕ → Cost} {S : List ℕ}
    {k : ℕ} (hk : k ∈ g.verts) (inv : FWInv g m S) :
    FWInv g (fwRound g m k) (k :: S) := by
  have heq := fwRound_eq hg (inv.diag k)
  have hmono : matLE (fwRound g m k) m := fwRound_le g m k
  have hrowk : ∀ b, fwRound g m k k b = m k b := by
    intro b
    rw [heq]
    by_cases hb : b ∈ g.verts
    · rw [if_pos ⟨hk, hb⟩, inv.diag k, zero_add, min_self]
    · rw [if_neg (fun h => hb h.2)]
  have hcolk : ∀ a, fwRound g m k a k = m a k := by
    intro a
    rw [heq]
    by_cases ha : a ∈ g.verts
    · rw [if_pos ⟨ha, hk⟩, inv.diag k, add_zero, min_self]
    · rw [if_neg (fun h => ha h.1)]
  have hdiag : ∀ i, fwRound g m k i i = 0 := by
    intro i
    rw [heq]
    by_cases hi : i ∈ g.verts
    · rw [if_pos ⟨hi, hi⟩, inv.diag i]
      exact min_eq_left (zero_le _)
    · rw [if_neg (fun h => hi h.1), inv.diag i]
  have hverts : ∀ a ∈ g.verts, ∀ b ∈ g.verts,
      fwRound g m k a b = min (m a b) (m a k + m k b) := by
    intro a ha b hb
    rw [heq, if_pos ⟨ha, hb⟩]
  refine ⟨hdiag, ?_, ?_, ?_, ?_, ?_⟩
  · intro j hj
    rcases List.mem_cons.mp hj with hj | hj
    · exact hj ▸ hk
    · exact inv.ssub j hj
  · intro j hj a ha b hb
    rcases List.mem_cons.mp hj with hj | hj
    · subst hj
      rw [hverts a ha b hb, hrowk, hcolk]
      exact min_le_right _ _
    · have hjv : j ∈ g.verts := inv.ssub j hj
      rw [hverts a ha b hb, hverts a ha j hjv, hverts j hjv b hb]
      rcases min_cases (m a j) (m a k + m k j) with ⟨e1, _⟩ | ⟨e1, _⟩ <;>
        rcases min_cases (m j b) (m j k + m k b) with ⟨e2, _⟩ | ⟨e2, _⟩ <;>
          rw [e1, e2]
      · exact le_trans (min_le_left _ _) (inv.tri j hj a ha b hb)
      · have h1 : m a b ≤ m a j + m j b := inv.tri j hj a ha b hb
        have h2 : m a k ≤ m a j + m j k := inv.tri j hj a ha k hk
        calc min (m a b) (m a k + m k b) ≤ m a k + m k b := min_le_right _ _
          _ ≤ (m a j + m j k) + m k b := add_le_add_right h2 _
          _ = m a j + (m j k + m k b) := add_assoc _ _ _
      · have h2 : m k b ≤ m k j + m j b := inv.tri j hj k hk b hb
        calc min (m a b) (m a k + m k b) ≤ m a k + m k b := min_le_right _ _
          _ ≤ m a k + (m k j + m j b) := add_le_add_left h2 _
          _ = (m a k + m k j) + m j b := (add_assoc _ _ _).symm
      · calc min (m a b) (m a k + m k b) ≤ m a k + m k b := min_le_right _ _
          _ ≤ m a k + ((m k j + m j k) + m k b) :=
            add_le_add_left (le_add_self) _
          _ = (m a k + m k j) + (m j k + m k b) := by
            rw [add_assoc (m a k), add_assoc (m k j)]
  · intro a b
    rw [heq]
    by_cases hab : a ∈ g.verts ∧ b ∈ g.verts
    · rw [if_pos hab]
      rcases min_cases (m a b) (m a k + m k b) with ⟨e1, _⟩ | ⟨e1, _⟩ <;> rw [e1]
      · exact inv.sound a b
      · rcases inv.sound a k with h1 | ⟨c1, hw1, hc1⟩
        · rw [h1, top_add]
          exact Or.inl rfl
        · rcases inv.sound k b with h2 | ⟨c2, hw2, hc2⟩
          · rw [h2, add_top]
            exact Or.inl rfl
          · refine Or.inr ⟨c1 + c2, hw1.trans hw2, ?_⟩
            rw [hc1, hc2, WithTop.coe_add]
    · rw [if_neg hab]
      exact inv.sound a b
  · intro u p hp
    exact le_trans (hmono u p.1) (inv.ubEdge u p hp)
  · intro a ha b hb c hw
    induction hw with
    | refl u =>
        rw [hdiag]
        simp
    | edge he =>
        exact le_trans (hmono _ _) (inv.ubEdge _ _ he)
    | @comp u j v c₁ c₂ hjm h1 h2 ih1 ih2 =>
        have hjv : j ∈ g.verts := by
          rcases List.mem_cons.mp hjm with h | h
          · exact h ▸ hk
          · exact inv.ssub j h
        calc fwRound g m k u v ≤ fwRound g m k u j + fwRound g m k j v := by
              rcases List.mem_cons.mp hjm with h | h
              · subst h
                rw [hverts u ha v hb, hrowk, hcolk]
                exact min_le_right _ _
              · rw [hverts u ha v hb, hverts u ha j hjv, hverts j hjv v hb]
                rcases min_cases (m u j) (m u k + m k j) with ⟨e1, _⟩ | ⟨e1, _⟩ <;>
                  rcases min_cases (m j v) (m j k + m k v) with ⟨e2, _⟩ | ⟨e2, _⟩ <;>
                    rw [e1, e2]
                · exact le_trans (min_le_left _ _) (inv.tri j h u ha v hb)
                · have h2 : m u k ≤ m u j + m j k := inv.tri j h u ha k hk
                  calc min (m u v) (m u k + m k v) ≤ m u k + m k v := min_le_right _ _
                    _ ≤ (m u j + m j k) + m k v := add_le_add_right h2 _
                    _ = m u j + (m j k + m k v) := add_assoc _ _ _
                · have h2 : m k v ≤ m k j + m j v := inv.tri j h k hk v hb
                  calc min (m u v) (m u k + m k v) ≤ m u k + m k v := min_le_right _ _
                    _ ≤ m u k + (m k j + m j v) := add_le_add_left h2 _
                    _ = (m u k + m k j) + m j v := (add_assoc _ _ _).symm
                · calc min (m u v) (m u k + m k v) ≤ m u k + m k v := min_le_right _ _
                    _ ≤ m u k + ((m k j + m j k) + m k v) :=
                      add_le_add_left (le_add_self) _
                    _ = (m u k + m k j) + (m j k + m k v) := by
                      rw [add_assoc (m u k), add_assoc (m k j)]
          _ ≤ (c₁ : Cost) + (c₂ : Cost) := add_le_add (ih1 ha hjv) (ih2 hjv hb)
          _ = ((c₁ + c₂ : ℚ≥0) : Cost) := (WithTop.coe_add _ _).symm

/-- Loading one source's edge list keeps the diagonal and soundness, and
establishes the per-edge upper bound for the edges loaded. -/
theorem fwEdges_inner {g : Graph} {u : ℕ} :
    ∀ (l : List (ℕ × ℚ≥0)) (m : ℕ → ℕ → Cost),
      (∀ p ∈ l, p ∈ g.adj u) →
      (∀ i, m i i = 0) →
      (∀ a b, m a b = ⊤ ∨ ∃ c : ℚ≥0, IsWalkCost g a b c ∧ m a b = (c : Cost)) →
      (∀ i, (l.foldl (fwEdgeStep u) m) i i = 0) ∧
      (∀ a b, (l.foldl (fwEdgeStep u) m) a b = ⊤ ∨
        ∃ c : ℚ≥0, IsWalkCost g a b c ∧ (l.foldl (fwEdgeStep u) m) a b = (c : Cost)) ∧
      (∀ p ∈ l, (l.foldl (fwEdgeStep u) m) u p.1 ≤ (p.2 : Cost)) ∧
      matLE (l.foldl (fwEdgeStep u) m) m := by
  intro l
  induction l with
  | nil =>
      intro m _ hd hs
      exact ⟨hd, hs, fun p hp => absurd hp (List.not_mem_nil p), matLE_refl m⟩
  | cons q l ih =>
      intro m hmem hd hs
      have hq : q ∈ g.adj u := hmem q (List.mem_cons_self _ _)
      set m2 := fwEdgeStep u m q with hm2
      have hle2 : matLE m2 m := fwEdgeStep_le u m q
      have hd2 : ∀ i, m2 i i = 0 := by
        intro i
        rw [hm2]
        unfold fwEdgeStep matUpdate
        by_cases h : (q.2 : Cost) < m u q.1
        · rw [if_pos h]
          by_cases hiq : i = u ∧ i = q.1
          · exfalso
            rw [← hiq.1, hiq.2] at h
            rw [← hiq.2] at h
            rw [hd i] at h
            exact absurd h (not_lt.mpr (zero_le _))
          · rw [if_neg hiq, hd i]
        · rw [if_neg h, hd i]
      have hs2 : ∀ a b, m2 a b = ⊤ ∨
          ∃ c : ℚ≥0, IsWalkCost g a b c ∧ m2 a b = (c : Cost) := by
        intro a b
        rw [hm2]
        unfold fwEdgeStep matUpdate
        by_cases h : (q.2 : Cost) < m u q.1
        · rw [if_pos h]
          by_cases hab : a = u ∧ b = q.1
          · rw [if_pos hab]
            refine Or.inr ⟨q.2, ?_, rfl⟩
            rw [hab.1, hab.2]
            have := IsWalkCost.snoc (IsWalkCost.refl (g := g) (u := u)) hq
            simpa using this
          · rw [if_neg hab]
            exact hs a b
        · rw [if_neg h]
          exact hs a b
      have hub2 : m2 u q.1 ≤ (q.2 : Cost) := by
        rw [hm2]
        unfold fwEdgeStep matUpdate
        by_cases h : (q.2 : Cost) < m u q.1
        · rw [if_pos h]
          simp
        · rw [if_neg h]
          exact not_lt.mp h
      obtain ⟨hd3, hs3, hub3, hle3⟩ :=
        ih m2 (fun p hp => hmem p (List.mem_cons_of_mem _ hp)) hd2 hs2
      have hfold : (q :: l).foldl (fwEdgeStep u) m = l.foldl (fwEdgeStep u) m2 := rfl
      rw [hfold]
      refine ⟨hd3, hs3, ?_, matLE_trans hle3 hle2⟩
      intro p hp
      rcases List.mem_cons.mp hp with hp | hp
      · subst hp
        exact le_trans (hle3 u p.1) hub2
      · exact hub3 p hp

/-- The edge-loading phase establishes the initial invariant. -/
theorem FWInv_init {g : Graph} (hg : g.wf) : FWInv g (fwEdges g fwBase) [] := by
  have hbase_d : ∀ i : ℕ, fwBase i i = 0 := by
    intro i
    simp [fwBase]
  have hbase_s : ∀ a b, fwBase a b = ⊤ ∨
      ∃ c : ℚ≥0, IsWalkCost g a b c ∧ fwBase a b = (c : Cost) := by
    intro a b
    by_cases hab : a = b
    · subst hab
      refine Or.inr ⟨0, IsWalkCost.refl, ?_⟩
      simp [fwBase]
    · exact Or.inl (by simp [fwBase, if_neg hab])
  have hmain : ∀ (is : List ℕ) (m : ℕ → ℕ → Cost),
      (∀ i, m i i = 0) →
      (∀ a b, m a b = ⊤ ∨ ∃ c : ℚ≥0, IsWalkCost g a b c ∧ m a b = (c : Cost)) →
      (∀ i, (is.foldl (fun m u => (g.adj u).foldl (fwEdgeStep u) m) m) i i = 0) ∧
      (∀ a b, (is.foldl (fun m u => (g.adj u).foldl (fwEdgeStep u) m) m) a b = ⊤ ∨
        ∃ c : ℚ≥0, IsWalkCost g a b c ∧
          (is.foldl (fun m u => (g.adj u).foldl (fwEdgeStep u) m) m) a b = (c : Cost)) ∧
      (∀ u ∈ is, ∀ p ∈ g.adj u,
        (is.foldl (fun m u => (g.adj u).foldl (fwEdgeStep u) m) m) u p.1 ≤
          (p.2 : Cost)) ∧
      matLE (is.foldl (fun m u => (g.adj u).foldl (fwEdgeStep u) m) m) m := by
    intro is
    induction is with
    | nil =>
        intro m hd hs
        exact ⟨hd, hs, fun u hu => absurd hu (List.not_mem_nil u), matLE_refl m⟩
    | cons u is ih =>
        intro m hd hs
        obtain ⟨hd2, hs2, hub2, hle2⟩ :=
          fwEdges_inner (g.adj u) m (fun p hp => hp) hd hs
        obtain ⟨hd3, hs3, hub3, hle3⟩ :=
          ih ((g.adj u).foldl (fwEdgeStep u) m) hd2 hs2
        refine ⟨hd3, hs3, ?_, matLE_trans hle3 hle2⟩
        intro x hx p hp
        rcases List.mem_cons.mp hx with hx | hx
        · subst hx
          exact le_trans (hle3 x p.1) (hub2 p hp)
        · exact hub3 x hx p hp
  obtain ⟨hd, hs, hub, _⟩ := hmain g.verts fwBase hbase_d hbase_s
  have hdE : ∀ i, fwEdges g fwBase i i = 0 := hd
  have hsE : ∀ a b, fwEdges g fwBase a b = ⊤ ∨
      ∃ c : ℚ≥0, IsWalkCost g a b c ∧ fwEdges g fwBase a b = (c : Cost) := hs
  have hubE : ∀ u, ∀ p ∈ g.adj u, fwEdges g fwBase u p.1 ≤ (p.2 : Cost) := by
    intro u p hp
    exact hub u (hg.srcMem u p hp) p hp
  refine ⟨hdE, ?_, ?_, hsE, hubE, ?_⟩
  · intro j hj
    exact absurd hj (List.not_mem_nil j)
  · intro j hj
    exact absurd hj (List.not_mem_nil j)
  · intro a ha b hb c hw
    induction hw with
    | refl v =>
        rw [hdE]
        simp
    | edge he =>
        exact hubE _ _ he
    | comp hk h1 h2 ih1 ih2 =>
        exact absurd hk (List.not_mem_nil _)

/-- After the outer loop, the invariant holds with every vertex settled. -/
theorem FWInv_final {g : Graph} (hg : g.wf) :
    FWInv g (floyd_warshall_precomputation g) g.verts := by
  have hmain : ∀ (l : List ℕ), (∀ x ∈ l, x ∈ g.verts) →
      ∀ (m : ℕ → ℕ → Cost) (S : List ℕ), FWInv g m S →
      ∃ S2 : List ℕ, (∀ x, x ∈ S2 ↔ x ∈ l ∨ x ∈ S) ∧
        FWInv g (l.foldl (fwRound g) m) S2 := by
    intro l
    induction l with
    | nil =>
        intro _ m S inv
        exact ⟨S, fun x => by simp, inv⟩
    | cons k l ih =>
        intro hmem m S inv
        have hk : k ∈ g.verts := hmem k (List.mem_cons_self _ _)
        have inv2 := FWInv_round hg hk inv
        obtain ⟨S2, hS2, inv3⟩ :=
          ih (fun x hx => hmem x (List.mem_cons_of_mem _ hx)) (fwRound g m k)
            (k :: S) inv2
        refine ⟨S2, ?_, inv3⟩
        intro x
        rw [hS2 x]
        simp [List.mem_cons]
        tauto
  obtain ⟨S2, hS2, inv⟩ := hmain g.verts (fun x hx => hx) (fwEdges g fwBase) []
    (FWInv_init hg)
  have : FWInv g (g.verts.foldl (fwRound g) (fwEdges g fwBase)) g.verts := by
    refine inv.congr ?_
    intro x
    rw [hS2 x]
    simp
  exact this

/-- The Floyd-Warshall table computes shortest walk distances on vertex
pairs. -/
theorem fw_computes {g : Graph} (hg : g.wf) {a b : ℕ}
    (ha : a ∈ g.verts) (hb : b ∈ g.verts) :
    Computes g a b (floyd_warshall_precomputation g a b) :=
  ⟨fun c hw => (FWInv_final hg).ubVia a ha b hb c (hw.toVia hg),
    (FWInv_final hg).sound a b⟩

/-! ## The dispatch scheduler (`run_simulation` in both prototypes)

Both prototypes run the identical loop; only the travel-time query differs
(on-demand Dijkstra vs table lookup), so the scheduler is embedded once,
parameterized by the query `pq`.  Python locals of the loop (`call_queue`,
`available_ambulances`, `dispatch_log`) form the state. -/

/-- A call as enqueued: `heapq.heappush(call_queue, (priority, call_id, row))`. -/
structure Call where
  priority : ℤ
  id : ℤ
  location : ℕ
  callType : String
deriving DecidableEq

/-- The heapq order on `(priority, call_id, row)` tuples; with distinct ids
the comparison never reaches the row. -/
def callLE (a b : Call) : Prop :=
  a.priority < b.priority ∨ (a.priority = b.priority ∧ a.id ≤ b.id)

instance : DecidableRel callLE := fun a b =>
  inferInstanceAs (Decidable (a.priority < b.priority ∨
    (a.priority = b.priority ∧ a.id ≤ b.id)))

instance : IsTotal Call callLE where
  total a b := by
    rcases lt_trichotomy a.priority b.priority with h | h | h
    · exact Or.inl (Or.inl h)
    · rcases le_total a.id b.id with h2 | h2
      · exact Or.inl (Or.inr ⟨h, h2⟩)
      · exact Or.inr (Or.inr ⟨h.symm, h2⟩)
    · exact Or.inr (Or.inl h)

instance : IsTrans Call callLE where
  trans a b c h₁ h₂ := by
    rcases h₁ with h₁ | ⟨h₁, h₁2⟩ <;> rcases h₂ with h₂ | ⟨h₂, h₂2⟩
    · exact Or.inl (h₁.trans h₂)
    · exact Or.inl (h₂ ▸ h₁)
    · exact Or.inl (h₁ ▸ h₂)
    · exact Or.inr ⟨h₁.trans h₂, h₁2.trans h₂2⟩

/-- The least call of the queue, the tuple `heapq.heappop` returns. -/
def callMin? : List Call → Option Call
  | [] => none
  | c :: cs =>
    some (match callMin? cs with
      | none => c
      | some m => if callLE m c then m else c)

theorem callMin?_eq_none {l : List Call} : callMin? l = none ↔ l = [] := by
  cases l with
  | nil => simp [callMin?]
  | cons c cs => simp [callMin?]

theorem callMin?_mem {l : List Call} {m : Call} (h : callMin? l = some m) :
    m ∈ l := by
  induction l generalizing m with
  | nil => simp [callMin?] at h
  | cons c cs ih =>
      simp only [callMin?] at h
      rcases hcs : callMin? cs with _ | m'
      · rw [hcs] at h
        simp at h
        simp [h]
      · rw [hcs] at h
        simp at h
        by_cases hle : callLE m' c
        · rw [if_pos hle] at h
          exact List.mem_cons_of_mem _ (ih (h ▸ hcs))
        · rw [if_neg hle] at h
          simp [h]

theorem callMin?_le {l : List Call} {m : Call} (h : callMin? l = some m) :
    ∀ c ∈ l, callLE m c := by
  induction l generalizing m with
  | nil => simp [callMin?] at h
  | cons c cs ih =>
      simp only [callMin?] at h
      rcases hcs : callMin? cs with _ | m'
      · rw [hcs] at h
        simp at h
        have : cs = [] := callMin?_eq_none.mp hcs
        subst this
        intro x hx
        rcases List.mem_singleton.mp hx with rfl
        rcases IsTotal.total (r := callLE) x x with h2 | h2 <;> exact h ▸ h2
      · rw [hcs] at h
        simp at h
        by_cases hle : callLE m' c
        · rw [if_pos hle] at h
          subst h
          intro x hx
          rcases List.mem_cons.mp hx with hx | hx
          · exact hx ▸ hle
          · exact ih hcs x hx
        · rw [if_neg hle] at h
          subst h
          intro x hx
          rcases List.mem_cons.mp hx with hx | hx
          · subst hx
            rcases IsTotal.total (r := callLE) x x with h2 | h2 <;> exact h2
          · rcases IsTotal.total (r := callLE) c x with h2 | h2
            · exact h2
            · have h3 : callLE m' x := ih hcs x hx
              rcases IsTotal.total (r := callLE) c m' with h4 | h4
              · exact Trans.trans h4 h3
              · exact absurd h4 hle

/-- The order of dequeues: the queue drained by repeated `heappop`. -/
def popOrderAux : ℕ → List Call → List Call
  | 0, _ => []
  | fuel + 1, q =>
    match callMin? q with
    | none => []
    | some c => c :: popOrderAux fuel (q.erase c)

/-- The sequence of calls the scheduler dequeues and processes. -/
def popOrder (q : List Call) : List Call := popOrderAux q.length q

/-- Scan of the fleet (`for ambulance_id, ambulance_location in
available_ambulances.items()`), tracking the strictly best travel time. -/
def selectVehicle (pq : ℕ → ℕ → Cost) (fleet : List (String × ℕ)) (loc : ℕ) :
    Option String × Cost :=
  fleet.foldl
    (fun acc av => if pq av.2 loc < acc.2 then (some av.1, pq av.2 loc) else acc)
    (none, ⊤)

/-- One dispatch decision (`log_entry`).  The Python code rounds the
displayed travel time to two decimals for the CSV only; the record here
keeps the value used for comparison. -/
structure DispatchRecord where
  callId : ℤ
  callType : String
  callLocation : ℕ
  selectedAmbulance : String
  timeToCall : Cost
deriving DecidableEq

/-- Processing one dequeued call: scan the fleet, then `if best_ambulance:`
append the log entry.  Python truthiness makes `None` and the empty string
both falsy. -/
def dispatchStep (pq : ℕ → ℕ → Cost) (fleet : List (String × ℕ)) (call : Call) :
    Option DispatchRecord :=
  match selectVehicle pq fleet call.location with
  | (some aid, d) =>
      if aid = "" then none
      else some ⟨call.id, call.callType, call.location, aid, d⟩
  | (none, _) => none

/-- The loop state: the Python locals of `run_simulation`. -/
structure SimState where
  call_queue : List Call
  available_ambulances : List (String × ℕ)
  dispatch_log : List DispatchRecord
deriving DecidableEq

/-- The `while call_queue:` loop body, iterated; the fuel is the number of
queued calls, each iteration popping exactly one. -/
def runSimAux (pq : ℕ → ℕ → Cost) : ℕ → SimState → SimState
  | 0, s => s
  | fuel + 1, s =>
    match callMin? s.call_queue with
    | none => s
    | some c =>
      runSimAux pq fuel
        ⟨s.call_queue.erase c, s.available_ambulances,
          s.dispatch_log ++ (dispatchStep pq s.available_ambulances c).toList⟩

/-- `run_simulation`, from the point where the queue and fleet are loaded:
drain the call queue, matching each call against the fleet snapshot. -/
def run_simulation (pq : ℕ → ℕ → Cost) (s : SimState) : SimState :=
  runSimAux pq s.call_queue.length s

theorem popOrderAux_perm : ∀ (fuel : ℕ) (q : List Call), q.length ≤ fuel →
    (popOrderAux fuel q).Perm q := by
  intro fuel
  induction fuel with
  | zero =>
      intro q hq
      have : q = [] := List.length_eq_zero.mp (Nat.le_zero.mp hq)
      subst this
      exact List.Perm.refl _
  | succ fuel ih =>
      intro q hq
      rcases hc : callMin? q with _ | c
      · have : q = [] := callMin?_eq_none.mp hc
        subst this
        simp [popOrderAux, callMin?]
      · have hm := callMin?_mem hc
        have hlen : q.length = (q.erase c).length + 1 := by
          have h1 := List.length_erase_of_mem hm
          have h2 : 0 < q.length := List.length_pos.mpr (List.ne_nil_of_mem hm)
          omega
        have hperm := ih (q.erase c) (by omega)
        have hfold : popOrderAux (fuel + 1) q = c :: popOrderAux fuel (q.erase c) := by
          simp [popOrderAux, hc]
        rw [hfold]
        exact (hperm.cons c).trans (List.perm_cons_erase hm).symm

theorem popOrderAux_sorted : ∀ (fuel : ℕ) (q : List Call), q.length ≤ fuel →
    (popOrderAux fuel q).Sorted callLE := by
  intro fuel
  induction fuel with
  | zero =>
      intro q hq
      have : q = [] := List.length_eq_zero.mp (Nat.le_zero.mp hq)
      subst this
      simp [popOrderAux]
  | succ fuel ih =>
      intro q hq
      rcases hc : callMin? q with _ | c
      · simp [popOrderAux, hc]
      · have hm := callMin?_mem hc
        have hlen : q.length = (q.erase c).length + 1 := by
          have h1 := List.length_erase_of_mem hm
          have h2 : 0 < q.length := List.length_pos.mpr (List.ne_nil_of_mem hm)
          omega
        have hfold : popOrderAux (fuel + 1) q = c :: popOrderAux fuel (q.erase c) := by
          simp [popOrderAux, hc]
        rw [hfold]
        refine List.sorted_cons.mpr ⟨?_, ih _ (by omega)⟩
        intro b hb
        have hb2 : b ∈ q.erase c := (popOrderAux_perm fuel _ (by omega)).subset hb
        exact callMin?_le hc b (List.erase_subset _ _ hb2)

/-- Two sorted permutations of each other with pairwise-distinct call ids
are equal: the dequeue order is uniquely determined. -/
theorem sorted_unique_of_nodup_ids : ∀ {l₁ l₂ : List Call}, l₁.Perm l₂ →
    l₁.Sorted callLE → l₂.Sorted callLE → (l₁.map Call.id).Nodup → l₁ = l₂ := by
  intro l₁
  induction l₁ with
  | nil =>
      intro l₂ hp _ _ _
      exact (hp.nil_eq).symm ▸ rfl
  | cons a l₁ ih =>
      intro l₂ hp hs₁ hs₂ hnd
      cases l₂ with
      | nil => exact absurd hp.symm.nil_eq (by simp)
      | cons b l₂ =>
          have hab : a = b := by
            have hbmem : b ∈ a :: l₁ := hp.mem_iff.mpr (List.mem_cons_self b l₂)
            have hamem : a ∈ b :: l₂ := hp.mem_iff.mp (List.mem_cons_self a l₁)
            have h1 : callLE a b := by
              rcases List.mem_cons.mp hbmem with h | h
              · rcases IsTotal.total (r := callLE) a a with h2 | h2 <;> exact h ▸ h2
              · exact (List.sorted_cons.mp hs₁).1 b h
            have h2 : callLE b a := by
              rcases List.mem_cons.mp hamem with h | h
              · rcases IsTotal.total (r := callLE) a a with h3 | h3 <;>
                  exact h ▸ h3
              · exact (List.sorted_cons.mp hs₂).1 a h
            have hid : a.id = b.id := by
              rcases h1 with h1 | ⟨h1p, h1i⟩ <;> rcases h2 with h2 | ⟨h2p, h2i⟩
              · exact absurd (h1.trans h2) (lt_irrefl _)
              · exact absurd h1 (h2p ▸ lt_irrefl _)
              · exact absurd h2 (h1p ▸ lt_irrefl _)
              · exact le_antisymm h1i h2i
            exact List.inj_on_of_nodup_map hnd (List.mem_cons_self a l₁) hbmem hid
          subst hab
          have hp2 : l₁.Perm l₂ := hp.cons_inv
          have := ih hp2 (List.sorted_cons.mp hs₁).2 (List.sorted_cons.mp hs₂).2
            ((List.nodup_cons.mp hnd).2)
          rw [this]

/-- Characterization of the fleet scan: either nothing beats the running
best, or the result is the first vehicle attaining the strict minimum. -/
theorem selectVehicle_aux (pq : ℕ → ℕ → Cost) (loc : ℕ) :
    ∀ (fleet : List (String × ℕ)) (acc : Option String × Cost),
      (fleet.foldl
          (fun acc av => if pq av.2 loc < acc.2 then (some av.1, pq av.2 loc) else acc)
          acc = acc ∧ ∀ av ∈ fleet, acc.2 ≤ pq av.2 loc) ∨
      (∃ l1 aid loc2 l2, fleet = l1 ++ (aid, loc2) :: l2 ∧
        fleet.foldl
          (fun acc av => if pq av.2 loc < acc.2 then (some av.1, pq av.2 loc) else acc)
          acc = (some aid, pq loc2 loc) ∧
        pq loc2 loc < acc.2 ∧
        (∀ av ∈ l1, pq loc2 loc < pq av.2 loc) ∧
        (∀ av ∈ l2, pq loc2 loc ≤ pq av.2 loc)) := by
  intro fleet
  induction fleet with
  | nil =>
      intro acc
      exact Or.inl ⟨rfl, fun av hav => absurd hav (List.not_mem_nil av)⟩
  | cons av fleet ih =>
      intro acc
      by_cases h : pq av.2 loc < acc.2
      · have hfold : (av :: fleet).foldl
            (fun acc av => if pq av.2 loc < acc.2 then (some av.1, pq av.2 loc) else acc)
            acc = fleet.foldl
            (fun acc av => if pq av.2 loc < acc.2 then (some av.1, pq av.2 loc) else acc)
            (some av.1, pq av.2 loc) := by
          simp [List.foldl_cons, if_pos h]
        rcases ih (some av.1, pq av.2 loc) with ⟨heq, hall⟩ |
          ⟨l1, aid, loc2, l2, hsplit, hres, hlt, hl1, hl2⟩
        · refine Or.inr ⟨[], av.1, av.2, fleet, by simp, ?_, h, ?_, ?_⟩
          · rw [hfold, heq]
          · intro x hx
            exact absurd hx (List.not_mem_nil x)
          · intro x hx
            exact hall x hx
        · refine Or.inr ⟨av :: l1, aid, loc2, l2, by rw [hsplit]; rfl, ?_, ?_, ?_, hl2⟩
          · rw [hfold, hres]
          · exact hlt.trans h
          · intro x hx
            rcases List.mem_cons.mp hx with hx | hx
            · exact hx ▸ hlt
            · exact hl1 x hx
      · have hfold : (av :: fleet).foldl
            (fun acc av => if pq av.2 loc < acc.2 then (some av.1, pq av.2 loc) else acc)
            acc = fleet.foldl
            (fun acc av => if pq av.2 loc < acc.2 then (some av.1, pq av.2 loc) else acc)
            acc := by
          simp [List.foldl_cons, if_neg h]
        rcases ih acc with ⟨heq, hall⟩ |
          ⟨l1, aid, loc2, l2, hsplit, hres, hlt, hl1, hl2⟩
        · refine Or.inl ⟨by rw [hfold, heq], ?_⟩
          intro x hx
          rcases List.mem_cons.mp hx with hx | hx
          · exact hx ▸ not_lt.mp h
          · exact hall x hx
        · refine Or.inr ⟨av :: l1, aid, loc2, l2, by rw [hsplit]; rfl,
            by rw [hfold, hres], hlt, ?_, hl2⟩
          intro x hx
          rcases List.mem_cons.mp hx with hx | hx
          · exact hx ▸ lt_of_lt_of_le hlt (not_lt.mp h)
          · exact hl1 x hx

/-- If the scan selects a vehicle, it is the first vehicle of the fleet
attaining the minimum finite travel time. -/
theorem selectVehicle_spec {pq : ℕ → ℕ → Cost} {fleet : List (String × ℕ)}
    {loc : ℕ} {aid : String} {d : Cost}
    (h : selectVehicle pq fleet loc = (some aid, d)) :
    ∃ l1 loc2 l2, fleet = l1 ++ (aid, loc2) :: l2 ∧ pq loc2 loc = d ∧ d < ⊤ ∧
      (∀ av ∈ l1, d < pq av.2 loc) ∧ (∀ av ∈ l2, d ≤ pq av.2 loc) := by
  rcases selectVehicle_aux pq loc fleet (none, ⊤) with ⟨heq, _⟩ |
    ⟨l1, aid2, loc2, l2, hsplit, hres, hlt, hl1, hl2⟩
  · rw [selectVehicle, heq] at h
    exact absurd (congrArg Prod.fst h) (by simp)
  · rw [selectVehicle, hres] at h
    have haid : aid2 = aid := by
      have := congrArg Prod.fst h
      simpa using this
    have hd : pq loc2 loc = d := by
      have := congrArg Prod.snd h
      simpa using this
    subst haid
    refine ⟨l1, loc2, l2, hsplit, hd, ?_, ?_, ?_⟩
    · rw [← hd]
      exact hlt
    · intro x hx
      rw [← hd]
      exact hl1 x hx
    · intro x hx
      rw [← hd]
      exact hl2 x hx

theorem toList_append_filterMap {α β : Type} (f : α → Option β) (c : α)
    (l : List α) : (f c).toList ++ l.filterMap f = (c :: l).filterMap f := by
  rcases h : f c with _ | b <;> simp [List.filterMap_cons, h]

/-- The loop, fully characterized: the fleet is returned untouched and the
log extends by the dispatch decisions of the dequeue order, each taken
against the same full fleet snapshot. -/
theorem runSimAux_spec (pq : ℕ → ℕ → Cost) :
    ∀ (fuel : ℕ) (q : List Call) (fleet : List (String × ℕ))
      (log : List DispatchRecord), q.length ≤ fuel →
      runSimAux pq fuel ⟨q, fleet, log⟩ =
        ⟨[], fleet, log ++ (popOrderAux fuel q).filterMap (dispatchStep pq fleet)⟩ := by
  intro fuel
  induction fuel with
  | zero =>
      intro q fleet log hq
      have : q = [] := List.length_eq_zero.mp (Nat.le_zero.mp hq)
      subst this
      simp [runSimAux, popOrderAux]
  | succ fuel ih =>
      intro q fleet log hq
      rcases hc : callMin? q with _ | c
      · have : q = [] := callMin?_eq_none.mp hc
        subst this
        simp [runSimAux, popOrderAux, callMin?]
      · have hm := callMin?_mem hc
        have hlen : q.length = (q.erase c).length + 1 := by
          have h1 := List.length_erase_of_mem hm
          have h2 : 0 < q.length := List.length_pos.mpr (List.ne_nil_of_mem hm)
          omega
        have hstep : runSimAux pq (fuel + 1) ⟨q, fleet, log⟩ =
            runSimAux pq fuel ⟨q.erase c, fleet,
              log ++ (dispatchStep pq fleet c).toList⟩ := by
          simp [runSimAux, hc]
        have hpop : popOrderAux (fuel + 1) q = c :: popOrderAux fuel (q.erase c) := by
          simp [popOrderAux, hc]
        rw [hstep, ih (q.erase c) fleet _ (by omega), hpop]
        rw [List.filterMap_cons]
        rcases hd : dispatchStep pq fleet c with _ | r <;>
          simp [hd, List.append_assoc]

/-! ## Helper facts used by the claim theorems -/

/-- `dijkstra_shortest_path(g, v, v) = 0`: the first pop is the start entry,
which equals the end node, so the function returns before any relaxation. -/
theorem dijkstra_self (g : Graph) (v : ℕ) : dijkstra_shortest_path g v v = 0 := by
  have hloop : ∀ fuel : ℕ,
      dijkstraLoop g v (fuel + 1) [((0 : Cost), v)] (dijkstraInit v) = some 0 := by
    intro fuel
    have hmin : heapMin? [((0 : Cost), v)] = some ((0 : Cost), v) := by
      simp [heapMin?]
    have hpop : heapPop [((0 : Cost), v)] =
        some (((0 : Cost), v), ([] : List (Cost × ℕ))) := by
      simp [heapPop, hmin]
    have hd : dijkstraInit v v = 0 := by simp [dijkstraInit]
    simp [dijkstraLoop, hpop, hd]
  have hfuel : dijkstraFuel g = (g.edgeCount + 1) + 1 := rfl
  unfold dijkstra_shortest_path
  rw [hfuel, hloop]
  rfl

/-- There is a walk from `u` to `v`. -/
def Reachable (g : Graph) (u v : ℕ) : Prop := ∃ c : ℚ≥0, IsWalkCost g u v c

/-- The shortest-path value is infinite exactly on unreachable pairs. -/
theorem Computes.top_iff {g : Graph} {u v : ℕ} {d : Cost}
    (h : Computes g u v d) : d = ⊤ ↔ ¬ Reachable g u v := by
  constructor
  · intro htop ⟨c, hw⟩
    have := h.1 c hw
    rw [htop] at this
    exact absurd (top_le_iff.mp this) WithTop.coe_ne_top
  · intro hnr
    rcases h.2 with htop | ⟨c, hw, _⟩
    · exact htop
    · exact absurd ⟨c, hw⟩ hnr

/-- `g2` is `g1` with a single edge's weight lowered (same edge position,
all other adjacency lists untouched, same vertex set). -/
def EdgeDecrease (g1 g2 : Graph) : Prop :=
  g2.verts = g1.verts ∧
  ∃ u l1 v w w2 l2, w2 ≤ w ∧ g1.adj u = l1 ++ (v, w) :: l2 ∧
    g2.adj u = l1 ++ (v, w2) :: l2 ∧ ∀ x, x ≠ u → g2.adj x = g1.adj x

theorem EdgeDecrease.wf {g1 g2 : Graph} (hg : g1.wf) (h : EdgeDecrease g1 g2) :
    g2.wf := by
  obtain ⟨hverts, u, l1, v, w, w2, l2, hw, hadj1, hadj2, hother⟩ := h
  have humem : u ∈ g1.verts := by
    refine hg.srcMem u (v, w) ?_
    rw [hadj1]
    simp
  have hvmem : v ∈ g1.verts := by
    have := hg.tgtMem u (v, w) (by rw [hadj1]; simp)
    simpa using this
  constructor
  · rw [hverts]
    exact hg.nodup
  · intro x p hp
    rw [hverts]
    by_cases hx : x = u
    · subst hx
      exact humem
    · rw [hother x hx] at hp
      exact hg.srcMem x p hp
  · intro x p hp
    rw [hverts]
    by_cases hx : x = u
    · subst hx
      rw [hadj2] at hp
      rcases List.mem_append.mp hp with hp | hp
      · exact hg.tgtMem x p (by rw [hadj1]; exact List.mem_append.mpr (Or.inl hp))
      · rcases List.mem_cons.mp hp with hp | hp
        · rw [hp]
          exact hvmem
        · exact hg.tgtMem x p
            (by rw [hadj1]; exact List.mem_append.mpr (Or.inr (List.mem_cons_of_mem _ hp)))
    · rw [hother x hx] at hp
      exact hg.tgtMem x p hp
  · intro x hx
    rw [hverts] at hx
    by_cases hxu : x = u
    · subst hxu
      exact absurd humem hx
    · rw [hother x hxu]
      exact hg.adjEmpty x hx

/-- Any walk of the original graph maps to a walk of the relaxed graph with
cost no larger. -/
theorem EdgeDecrease.walk_transfer {g1 g2 : Graph} (h : EdgeDecrease g1 g2)
    {a b : ℕ} {c : ℚ≥0} (hw : IsWalkCost g1 a b c) :
    ∃ c2 : ℚ≥0, c2 ≤ c ∧ IsWalkCost g2 a b c2 := by
  obtain ⟨hverts, u, l1, v, w, w2, l2, hle, hadj1, hadj2, hother⟩ := h
  induction hw with
  | refl => exact ⟨0, le_rfl, IsWalkCost.refl⟩
  | @snoc y x c w0 hwalk hedge ih =>
      obtain ⟨c2, hc2, hw2⟩ := ih
      by_cases hy : y = u
      · subst hy
        rw [hadj1] at hedge
        rcases List.mem_append.mp hedge with he | he
        · refine ⟨c2 + w0, add_le_add hc2 le_rfl, ?_⟩
          exact IsWalkCost.snoc hw2 (by rw [hadj2]; exact List.mem_append.mpr (Or.inl he))
        · rcases List.mem_cons.mp he with he | he
          · have hx : x = v := by rw [Prod.mk.injEq] at he; exact he.1
            have hw0 : w0 = w := by rw [Prod.mk.injEq] at he; exact he.2
            subst hx
            refine ⟨c2 + w2, ?_, ?_⟩
            · rw [hw0]
              exact add_le_add hc2 hle
            · exact IsWalkCost.snoc hw2
                (by rw [hadj2]; exact List.mem_append.mpr (Or.inr (List.mem_cons_self _ _)))
          · refine ⟨c2 + w0, add_le_add hc2 le_rfl, ?_⟩
            exact IsWalkCost.snoc hw2
              (by rw [hadj2]
                  exact List.mem_append.mpr (Or.inr (List.mem_cons_of_mem _ he)))
      · refine ⟨c2 + w0, add_le_add hc2 le_rfl, ?_⟩
        exact IsWalkCost.snoc hw2 (by rw [hother y hy]; exact hedge)

/-- Shortest distances only shrink when an edge weight shrinks. -/
theorem computes_mono {g1 g2 : Graph} (h : EdgeDecrease g1 g2)
    {a b : ℕ} {d1 d2 : Cost} (h1 : Computes g1 a b d1) (h2 : Computes g2 a b d2) :
    d2 ≤ d1 := by
  rcases h1.2 with htop | ⟨c, hw, hc⟩
  · rw [htop]
    exact le_top
  · obtain ⟨c2, hle, hw2⟩ := h.walk_transfer hw
    calc d2 ≤ (c2 : Cost) := h2.1 c2 hw2
      _ ≤ (c : Cost) := WithTop.coe_le_coe.mpr hle
      _ = d1 := hc.symm

/-! ## Claim theorems

One theorem per claim of the specification audit, with concrete witnesses
following each hypothesis-bearing theorem. -/

/-- C1: for every graph with finitely many vertices and non-negative edge
weights and every pair of its vertices, the on-demand strategy and the
precomputed strategy agree: `dijkstra_shortest_path(graph, u, v)` equals
entry `[u][v]` of `floyd_warshall_precomputation(graph)`, including the
`+infinity` case for unreachable pairs. -/
theorem claim_C1_cross_strategy_agreement {g : Graph} (hg : g.wf) {u v : ℕ}
    (hu : u ∈ g.verts) (hv : v ∈ g.verts) :
    dijkstra_shortest_path g u v = floyd_warshall_precomputation g u v :=
  Computes.unique (dijkstra_computes hg u v) (fw_computes hg hu hv)

/-- The spec's worked example network: A→B weight 4, B→C weight 1,
A→C weight 10, with A, B, C numbered 0, 1, 2. -/
def exampleRows : List (ℕ × ℕ × ℚ≥0) := [(0, 1, 4), (1, 2, 1), (0, 2, 10)]

def exampleGraph : Graph := buildGraph exampleRows

theorem claim_C1_witness :
    dijkstra_shortest_path exampleGraph 0 2 =
      floyd_warshall_precomputation exampleGraph 0 2 :=
  claim_C1_cross_strategy_agreement (buildGraph_wf exampleRows)
    (by decide) (by decide)

/-- C5: for every graph with non-negative edge weights, after
`floyd_warshall_precomputation(graph)` completes, every entry satisfies the
triangle inequality `table[i][j] ≤ table[i][k] + table[k][j]` over the
graph's vertices. -/
theorem claim_C5_triangle_inequality {g : Graph} (hg : g.wf) {i j k : ℕ}
    (hi : i ∈ g.verts) (hj : j ∈ g.verts) (hk : k ∈ g.verts) :
    floyd_warshall_precomputation g i j ≤
      floyd_warshall_precomputation g i k + floyd_warshall_precomputation g k j :=
  (FWInv_final hg).tri k hk i hi j hj

theorem claim_C5_witness :
    floyd_warshall_precomputation exampleGraph 0 2 ≤
      floyd_warshall_precomputation exampleGraph 0 1 +
        floyd_warshall_precomputation exampleGraph 1 2 :=
  claim_C5_triangle_inequality (buildGraph_wf exampleRows)
    (by decide) (by decide) (by decide)

/-- C6: for every finite graph with non-negative edge weights and every
source and target, `dijkstra_shortest_path` terminates — the loop returns
within its iteration budget rather than exhausting it — and it returns
`+infinity` exactly when the target is not reachable from the source. -/
theorem claim_C6_termination_and_infinity {g : Graph} (hg : g.wf) (s t : ℕ) :
    (∃ r, dijkstraLoop g t (dijkstraFuel g) [((0 : Cost), s)]
      (dijkstraInit s) = some r) ∧
    (dijkstra_shortest_path g s t = ⊤ ↔ ¬ Reachable g s t) := by
  constructor
  · refine dijkstraLoop_isSome hg (dijkstraFuel g) _ _ ∅ (DInv_init g s) ?_
    rw [settledBound_empty hg]
    simp [dijkstraFuel]
    omega
  · exact (dijkstra_computes hg s t).top_iff

theorem claim_C6_witness :
    (∃ r, dijkstraLoop exampleGraph 2 (dijkstraFuel exampleGraph)
      [((0 : Cost), 0)] (dijkstraInit 0) = some r) ∧
    (dijkstra_shortest_path exampleGraph 0 2 = ⊤ ↔ ¬ Reachable exampleGraph 0 2) :=
  claim_C6_termination_and_infinity (buildGraph_wf exampleRows) 0 2

/-- C7: for every vertex `v` of a graph whose self-loops at `v` (if any)
have non-negative weight — automatic here, weights being non-negative by
type — `dijkstra_shortest_path(graph, v, v)` returns 0. -/
theorem claim_C7_self_distance_zero (g : Graph) (v : ℕ) :
    dijkstra_shortest_path g v v = 0 :=
  dijkstra_self g v

/-- C8: decreasing a single edge weight (staying non-negative) never
increases any shortest distance computed afterward, by either strategy. -/
theorem claim_C8_weight_monotonicity {g1 g2 : Graph} (hg : g1.wf)
    (hdec : EdgeDecrease g1 g2) (s t : ℕ) :
    dijkstra_shortest_path g2 s t ≤ dijkstra_shortest_path g1 s t ∧
    (s ∈ g1.verts → t ∈ g1.verts →
      floyd_warshall_precomputation g2 s t ≤ floyd_warshall_precomputation g1 s t) := by
  have hg2 : g2.wf := hdec.wf hg
  constructor
  · exact computes_mono hdec (dijkstra_computes hg s t) (dijkstra_computes hg2 s t)
  · intro hs ht
    have hs2 : s ∈ g2.verts := by rw [hdec.1]; exact hs
    have ht2 : t ∈ g2.verts := by rw [hdec.1]; exact ht
    exact computes_mono hdec (fw_computes hg hs ht) (fw_computes hg2 hs2 ht2)

def rows8a : List (ℕ × ℕ × ℚ≥0) := [(0, 1, 4)]

def rows8b : List (ℕ × ℕ × ℚ≥0) := [(0, 1, 0)]

theorem edgeDecrease_example : EdgeDecrease (buildGraph rows8a) (buildGraph rows8b) := by
  refine ⟨by decide, 0, [], 1, 4, 0, [], zero_le _, rfl, rfl, ?_⟩
  intro x hx
  show (buildGraph rows8b).adj x = (buildGraph rows8a).adj x
  simp [buildGraph, rows8a, rows8b, Graph.add_edge, Graph.empty, hx]

theorem claim_C8_witness :
    dijkstra_shortest_path (buildGraph rows8b) 0 1 ≤
      dijkstra_shortest_path (buildGraph rows8a) 0 1 ∧
    ((0 : ℕ) ∈ (buildGraph rows8a).verts → (1 : ℕ) ∈ (buildGraph rows8a).verts →
      floyd_warshall_precomputation (buildGraph rows8b) 0 1 ≤
        floyd_warshall_precomputation (buildGraph rows8a) 0 1) :=
  claim_C8_weight_monotonicity (buildGraph_wf rows8a) edgeDecrease_example 0 1

/-- C10: `dijkstra_shortest_path` is total over arbitrary location tokens
(the embedding is a total function, mirroring that the Python code raises
no error for tokens outside the vertex set): it returns 0 whenever the
start and end coincide, even when absent from the vertex set, and returns
`+infinity` whenever the end node is absent from the vertex set and differs
from the start. -/
theorem claim_C10_totality {g : Graph} (hg : g.wf) (s t : ℕ) :
    dijkstra_shortest_path g s s = 0 ∧
    (t ∉ g.verts → t ≠ s → dijkstra_shortest_path g s t = ⊤) := by
  refine ⟨dijkstra_self g s, ?_⟩
  intro ht hts
  rw [(dijkstra_computes hg s t).top_iff]
  rintro ⟨c, hw⟩
  rcases hw.target_mem hg with ⟨hst, _⟩ | hmem
  · exact hts hst.symm
  · exact ht hmem

theorem claim_C10_witness :
    dijkstra_shortest_path exampleGraph 0 0 = 0 ∧
    ((5 : ℕ) ∉ exampleGraph.verts → (5 : ℕ) ≠ 0 →
      dijkstra_shortest_path exampleGraph 0 5 = ⊤) :=
  claim_C10_totality (buildGraph_wf exampleRows) 0 5

/-- C3: for every multiset of calls with pairwise-distinct ids pushed onto
the call queue, the scheduler dequeues the calls in the order of the input
sorted by priority ascending, ties broken by call id ascending, regardless
of the enqueue order. -/
theorem claim_C3_dequeue_order {q : List Call} (hq : (q.map Call.id).Nodup) :
    popOrder q = List.insertionSort callLE q ∧
    ∀ q2, q.Perm q2 → popOrder q2 = popOrder q := by
  have hperm : (popOrder q).Perm q := popOrderAux_perm q.length q le_rfl
  have hsorted : (popOrder q).Sorted callLE := popOrderAux_sorted q.length q le_rfl
  have hnd : ((popOrder q).map Call.id).Nodup := ((hperm.map Call.id).nodup_iff).mpr hq
  constructor
  · exact sorted_unique_of_nodup_ids
      (hperm.trans (List.perm_insertionSort callLE q).symm) hsorted
      (List.sorted_insertionSort callLE q) hnd
  · intro q2 hq2
    have hperm2 : (popOrder q2).Perm q2 :=
      popOrderAux_perm q2.length q2 le_rfl
    have hsorted2 : (popOrder q2).Sorted callLE :=
      popOrderAux_sorted q2.length q2 le_rfl
    exact sorted_unique_of_nodup_ids
      ((hperm2.trans hq2.symm).trans hperm.symm) hsorted2 hsorted
      (((hperm2.trans hq2.symm).map Call.id).nodup_iff.mpr hq)

def exampleCalls : List Call :=
  [⟨2, 7, 0, "Fire"⟩, ⟨2, 3, 1, "Medical"⟩, ⟨1, 9, 2, "Accident"⟩]

theorem claim_C3_witness :
    popOrder exampleCalls = List.insertionSort callLE exampleCalls ∧
    ∀ q2, exampleCalls.Perm q2 → popOrder q2 = popOrder exampleCalls :=
  claim_C3_dequeue_order (by decide)

/-- C4: whenever a `DispatchRecord` is produced for a call, the selected
vehicle attains the minimum travel distance over the whole fleet snapshot
(strictly better than every vehicle listed before it, no worse than every
vehicle after it, in the fleet's deterministic iteration order), and that
minimum is finite. -/
theorem claim_C4_argmin_selection {pq : ℕ → ℕ → Cost}
    {fleet : List (String × ℕ)} {call : Call} {r : DispatchRecord}
    (h : dispatchStep pq fleet call = some r) :
    ∃ l1 loc2 l2, fleet = l1 ++ (r.selectedAmbulance, loc2) :: l2 ∧
      pq loc2 call.location = r.timeToCall ∧ r.timeToCall < ⊤ ∧
      (∀ av ∈ l1, r.timeToCall < pq av.2 call.location) ∧
      (∀ av ∈ l2, r.timeToCall ≤ pq av.2 call.location) := by
  unfold dispatchStep at h
  rcases hsel : selectVehicle pq fleet call.location with ⟨b, d⟩
  rw [hsel] at h
  cases b with
  | none => exact absurd h (by simp)
  | some aid =>
      dsimp only at h
      by_cases haid : aid = ""
      · rw [if_pos haid] at h
        exact absurd h (by simp)
      · rw [if_neg haid] at h
        have hr : r = ⟨call.id, call.callType, call.location, aid, d⟩ :=
          (Option.some.injEq _ _ ▸ h).symm
        obtain ⟨l1, loc2, l2, hsplit, hd, htop, hl1, hl2⟩ := selectVehicle_spec hsel
        refine ⟨l1, loc2, l2, ?_, ?_, ?_, ?_, ?_⟩ <;> rw [hr]
        · exact hsplit
        · exact hd
        · exact htop
        · exact hl1
        · exact hl2

theorem claim_C4_witness :
    ∃ l1 loc2 l2,
      ([("A1", 3), ("A2", 4)] : List (String × ℕ)) =
        l1 ++ ((DispatchRecord.mk 5 "X" 2 "A1" 0).selectedAmbulance, loc2) :: l2 ∧
      (fun _ _ => (0 : Cost)) loc2 (Call.mk 1 5 2 "X").location =
        (DispatchRecord.mk 5 "X" 2 "A1" 0).timeToCall ∧
      (DispatchRecord.mk 5 "X" 2 "A1" 0).timeToCall < ⊤ ∧
      (∀ av ∈ l1, (DispatchRecord.mk 5 "X" 2 "A1" 0).timeToCall <
        (fun _ _ => (0 : Cost)) av.2 (Call.mk 1 5 2 "X").location) ∧
      (∀ av ∈ l2, (DispatchRecord.mk 5 "X" 2 "A1" 0).timeToCall ≤
        (fun _ _ => (0 : Cost)) av.2 (Call.mk 1 5 2 "X").location) :=
  @claim_C4_argmin_selection (fun _ _ => (0 : Cost)) [("A1", 3), ("A2", 4)]
    (Call.mk 1 5 2 "X") (DispatchRecord.mk 5 "X" 2 "A1" 0) (by decide)

/-- C9: the scheduler never mutates the fleet snapshot — the
vehicle-to-location mapping is identical before and after the dispatch
loop — and every call's decision is taken against the same full fleet
(so a vehicle selected earlier stays eligible): the log is exactly the
dequeue order filtered through a per-call scan of the entire snapshot. -/
theorem claim_C9_fleet_frame (pq : ℕ → ℕ → Cost) (s : SimState) :
    (run_simulation pq s).available_ambulances = s.available_ambulances ∧
    (run_simulation pq s).dispatch_log = s.dispatch_log ++
      (popOrder s.call_queue).filterMap
        (dispatchStep pq s.available_ambulances) := by
  obtain ⟨q, fleet, log⟩ := s
  have h := runSimAux_spec pq q.length q fleet log le_rfl
  unfold run_simulation popOrder
  constructor
  · rw [h]
  · rw [h]

/-- C2 (code bug): an ambulance whose id is the empty string is falsy in
Python, so `if best_ambulance:` drops the dispatch: with one such ambulance
at finite travel distance 0, the call produces no record even though a
vehicle with finite distance exists, contradicting the claimed
if-and-only-if. -/
theorem claim_C2_empty_id_counterexample :
    (run_simulation (fun _ _ => (0 : Cost))
      ⟨[⟨1, 1, 0, "Emergency"⟩], [("", 5)], []⟩).dispatch_log = [] ∧
    (fun _ _ => (0 : Cost)) 5 0 < (⊤ : Cost) := by
  constructor
  · decide
  · decide
